import Mathlib

/-!
# Verification of the video-processor task core

A shallow embedding, in Lean 4, of the scheduling / lifecycle core of the
video-processor repository, together with theorems settling the behavioural
claims made by its specification.

The embedding covers:

* `app/core/persistence.py` — the SQLite-backed task store (`TaskPersistence`):
  rows, `save_task` upsert semantics, the disabled-store degradation paths;
* `app/core/task_manager.py` — the bounded-concurrency scheduler
  (`TaskManager`), modelled as a labelled transition system whose atomic steps
  are the code regions between `await` suspension points of the single-threaded
  asyncio event loop;
* `app/core/clip_cutter.py` — `merge_adjacent_clips`, the cutting loop of
  `process_clips` and the numeric-index ordering of `merge_video_clips`;
* `app/core/ai_analyzer.py` — `analyze_merged_transcripts` and its fallback
  `_create_fallback_clip_order`.

Timestamps that the Python code keeps as `"HH:MM:SS.mmm"` strings and converts
with `utils/time.py` are modelled at millisecond precision as natural numbers;
the second-valued comparisons of the source are scaled by 1000 and carried out
exactly.  Wall-clock times observed by `datetime.now()` are abstract naturals.
External effects (SQLite, ffmpeg, the AI HTTP call, websockets, the
filesystem) are modelled by explicit parameters recording their outcomes.
-/

/-! ## Persistence store (`app/core/persistence.py`) -/

/-- The status strings stored in the `status` column. -/
inductive TaskStatus where
  | pending
  | processing
  | completed
  | error
  | timeout
  | cancelled
  deriving DecidableEq, Repr

/-- The statuses `('completed', 'error', 'timeout', 'cancelled')` tested by
`save_task` when deciding whether to stamp `completed_at`
(persistence.py line 128). -/
def TaskStatus.isTerminal : TaskStatus → Bool
  | .completed => true
  | .error => true
  | .timeout => true
  | .cancelled => true
  | _ => false

/-- One row of the `tasks` table created by `_init_db_sync`
(persistence.py lines 39-51).  `data` holds the serialized JSON payload
(`data_json`), or `none` for SQL NULL. -/
structure TaskRow where
  status : TaskStatus
  data : Option String
  output_dir : Option String
  error : Option String
  created_at : Nat
  started_at : Option Nat
  completed_at : Option Nat
  updated_at : Nat
  deriving DecidableEq, Repr

/-- The arguments of one `save_task(task_id, status, data, output_dir, error)`
call, together with the value of `datetime.now()` observed during the call
(persistence.py line 101).  Like in the Python signature, `data`,
`output_dir` and `error` default to absent. -/
structure SaveCall where
  now : Nat
  status : TaskStatus
  data : Option String := none
  output_dir : Option String := none
  error : Option String := none
  deriving DecidableEq, Repr

/-- Effect of `TaskPersistence.save_task` on the row of one task id
(persistence.py lines 81-134), given the existing row if any:

* if the row exists, the `UPDATE tasks SET status = ?, data = ?, output_dir =
  ?, error = ?, updated_at = ?` of lines 105-113 binds exactly the call's
  arguments — absent arguments are bound as NULL;
* otherwise the `INSERT` of lines 116-120 creates the row;
* then lines 122-132 stamp `started_at` when status is `'processing'` and the
  column is still NULL, and `completed_at` when status is terminal and the
  column is still NULL. -/
def save_task_row (c : SaveCall) (row : Option TaskRow) : TaskRow :=
  let r : TaskRow :=
    match row with
    | some r =>
        { r with
          status := c.status
          data := c.data
          output_dir := c.output_dir
          error := c.error
          updated_at := c.now }
    | none =>
        { status := c.status
          data := c.data
          output_dir := c.output_dir
          error := c.error
          created_at := c.now
          started_at := none
          completed_at := none
          updated_at := c.now }
  let r :=
    if c.status = .processing ∧ r.started_at = none then
      { r with started_at := some c.now }
    else r
  if c.status.isTerminal ∧ r.completed_at = none then
    { r with completed_at := some c.now }
  else r

/-- The persistence manager: the `enabled` flag (persistence.py line 25) and
the table contents, keyed by `task_id`. -/
structure Store where
  enabled : Bool
  rows : List (String × TaskRow)
  deriving DecidableEq, Repr

/-- Row lookup by primary key (`SELECT ... WHERE task_id = ?`). -/
def Store.findRow (s : Store) (id : String) : Option TaskRow :=
  (s.rows.find? (fun p => p.1 == id)).map (·.2)

/-- `TaskPersistence.save_task` (persistence.py lines 81-139): a no-op when the
store is disabled (lines 84-85), otherwise the upsert of `save_task_row`. -/
def Store.save_task (s : Store) (id : String) (c : SaveCall) : Store :=
  if !s.enabled then s
  else
    match s.findRow id with
    | some _ =>
        { s with rows := s.rows.map (fun p => if p.1 == id then (p.1, save_task_row c (some p.2)) else p) }
    | none => { s with rows := s.rows ++ [(id, save_task_row c none)] }

/-- `TaskPersistence.get_task` (persistence.py lines 141-169): `None` when the
store is disabled, otherwise the row for the id. -/
def Store.get_task (s : Store) (id : String) : Option TaskRow :=
  if !s.enabled then none else s.findRow id

/-- `TaskPersistence.get_tasks_by_status` (persistence.py lines 171-198):
`[]` when disabled, otherwise the rows of that status ordered by `created_at`
descending, limited. -/
def Store.get_tasks_by_status (s : Store) (status : TaskStatus) (limit : Nat) : List TaskRow :=
  if !s.enabled then []
  else
    (((s.rows.map (·.2)).filter (fun r => r.status == status)).mergeSort
      (fun a b => b.created_at ≤ a.created_at)).take limit

/-- `TaskPersistence.get_pending_tasks` (persistence.py lines 200-231):
`[]` when disabled, otherwise the `pending`/`processing` rows ordered by
`created_at` ascending. -/
def Store.get_pending_tasks (s : Store) : List TaskRow :=
  if !s.enabled then []
  else
    ((s.rows.map (·.2)).filter
      (fun r => r.status == .pending || r.status == .processing)).mergeSort
      (fun a b => a.created_at ≤ b.created_at)

/-- `TaskPersistence.delete_task` (persistence.py lines 233-250): returns
`False` when the store is disabled (lines 235-236), otherwise deletes the row
and returns `True`. -/
def Store.delete_task (s : Store) (id : String) : Store × Bool :=
  if !s.enabled then (s, false)
  else ({ s with rows := s.rows.filter (fun p => !(p.1 == id)) }, true)

/-- `TaskPersistence.cleanup_old_tasks` (persistence.py lines 252-281): `0`
when disabled, otherwise deletes terminal rows with `completed_at` before the
cutoff and returns the deleted count.  A NULL `completed_at` never compares
below the cutoff in SQL, so such rows are kept. -/
def Store.cleanup_old_tasks (s : Store) (cutoff : Nat) : Store × Nat :=
  if !s.enabled then (s, 0)
  else
    let gone (p : String × TaskRow) : Bool :=
      p.2.status.isTerminal &&
        (match p.2.completed_at with
         | some t => decide (t < cutoff)
         | none => false)
    ({ s with rows := s.rows.filter (fun p => !gone p) }, (s.rows.filter gone).length)

/-- A sequence of `save_task` calls for one task id, applied in order to the
id's row (starting from `row`). -/
def run_saves_row (cs : List SaveCall) (row : Option TaskRow) : Option TaskRow :=
  cs.foldl (fun r c => some (save_task_row c r)) row

/-- The same sequence applied through the store. -/
def Store.run_saves (s : Store) (id : String) (cs : List SaveCall) : Store :=
  cs.foldl (fun s c => s.save_task id c) s

/-! ### Lemmas about `save_task` row updates -/

theorem save_task_row_started_some (c : SaveCall) (r : TaskRow) :
    (save_task_row c (some r)).started_at =
      if c.status = .processing ∧ r.started_at = none then some c.now
      else r.started_at := by
  simp only [save_task_row]
  split_ifs <;> simp_all

theorem save_task_row_started_none (c : SaveCall) :
    (save_task_row c none).started_at =
      if c.status = .processing then some c.now else none := by
  simp only [save_task_row]
  split_ifs <;> simp_all

theorem save_task_row_completed_some (c : SaveCall) (r : TaskRow) :
    (save_task_row c (some r)).completed_at =
      if c.status.isTerminal ∧ r.completed_at = none then some c.now
      else r.completed_at := by
  simp only [save_task_row]
  split_ifs <;> simp_all

theorem save_task_row_completed_none (c : SaveCall) :
    (save_task_row c none).completed_at =
      if c.status.isTerminal = true then some c.now else none := by
  simp only [save_task_row]
  split_ifs <;> simp_all

/-- Folding a call sequence over an existing row, entirely inside `Option`. -/
theorem run_saves_row_some (cs : List SaveCall) (r : TaskRow) :
    run_saves_row cs (some r) =
      some (cs.foldl (fun r c => save_task_row c (some r)) r) := by
  induction cs generalizing r with
  | nil => rfl
  | cons c cs ih => simpa [run_saves_row, List.foldl_cons] using ih (save_task_row c (some r))

theorem row_fold_started (cs : List SaveCall) (r : TaskRow) :
    (cs.foldl (fun r c => save_task_row c (some r)) r).started_at =
      match r.started_at with
      | some t => some t
      | none => (cs.find? (fun c => c.status == .processing)).map (·.now) := by
  induction cs generalizing r with
  | nil => cases h : r.started_at <;> simp [h]
  | cons c cs ih =>
      rw [List.foldl_cons, ih]
      cases h : r.started_at with
      | some t => simp [save_task_row_started_some, h]
      | none =>
          by_cases hp : c.status = .processing
          · simp [save_task_row_started_some, h, hp, List.find?_cons]
          · have : (c.status == TaskStatus.processing) = false := by
              simpa using hp
            simp [save_task_row_started_some, h, hp, List.find?_cons, this]

theorem row_fold_completed (cs : List SaveCall) (r : TaskRow) :
    (cs.foldl (fun r c => save_task_row c (some r)) r).completed_at =
      match r.completed_at with
      | some t => some t
      | none => (cs.find? (fun c => c.status.isTerminal)).map (·.now) := by
  induction cs generalizing r with
  | nil => cases h : r.completed_at <;> simp [h]
  | cons c cs ih =>
      rw [List.foldl_cons, ih]
      cases h : r.completed_at with
      | some t => simp [save_task_row_completed_some, h]
      | none =>
          by_cases hp : c.status.isTerminal = true
          · simp [save_task_row_completed_some, h, hp, List.find?_cons]
          · simp [save_task_row_completed_some, h, hp, List.find?_cons]

/-- `save_task` leaves the `enabled` flag alone. -/
theorem Store.enabled_save (s : Store) (id : String) (c : SaveCall) :
    (s.save_task id c).enabled = s.enabled := by
  simp only [Store.save_task]
  split_ifs
  · rfl
  · cases h : s.findRow id <;> rfl

/-- On an enabled store, `save_task` updates exactly the row of `id`. -/
theorem Store.findRow_save (s : Store) (id : String) (c : SaveCall)
    (hen : s.enabled = true) :
    (s.save_task id c).findRow id = some (save_task_row c (s.findRow id)) := by
  cases h : s.findRow id with
  | some r =>
      obtain ⟨p, hf, hp2⟩ : ∃ p, s.rows.find? (fun p => p.1 == id) = some p ∧ p.2 = r := by
        have h' := h
        simp only [Store.findRow] at h'
        cases hf : s.rows.find? (fun p => p.1 == id) with
        | none => rw [hf] at h'; simp at h'
        | some p =>
            rw [hf] at h'
            exact ⟨p, rfl, by simpa using h'⟩
      have hpid : (p.1 == id) = true := by
        have := List.find?_some hf
        simpa using this
      unfold Store.save_task
      rw [hen, h]
      simp only [Bool.not_true, Bool.false_eq_true, if_false]
      unfold Store.findRow
      rw [List.find?_map]
      have hcomp : ((fun p : String × TaskRow => p.1 == id) ∘
          (fun p : String × TaskRow =>
            if p.1 == id then (p.1, save_task_row c (some p.2)) else p)) =
          (fun p : String × TaskRow => p.1 == id) := by
        funext q
        by_cases hq : (q.1 == id) = true <;> simp [Function.comp, hq]
      rw [hcomp, hf]
      have hpe : p.1 = id := by simpa using hpid
      simp [hpe, hp2]
  | none =>
      have hnone : s.rows.find? (fun p => p.1 == id) = none := by
        have h' := h
        simp only [Store.findRow] at h'
        cases hf : s.rows.find? (fun p => p.1 == id) with
        | none => rfl
        | some p => rw [hf] at h'; simp at h'
      unfold Store.save_task
      rw [hen, h]
      simp only [Bool.not_true, Bool.false_eq_true, if_false]
      unfold Store.findRow
      rw [List.find?_append, hnone]
      simp

/-- Running a call sequence through an enabled store acts on the id's row
exactly as `run_saves_row`. -/
theorem Store.findRow_run_saves (s : Store) (id : String) (cs : List SaveCall)
    (hen : s.enabled = true) :
    (s.run_saves id cs).findRow id = run_saves_row cs (s.findRow id) := by
  induction cs generalizing s with
  | nil => rfl
  | cons c cs ih =>
      have h1 : s.run_saves id (c :: cs) = (s.save_task id c).run_saves id cs := rfl
      have h2 : run_saves_row (c :: cs) (s.findRow id) =
          run_saves_row cs (some (save_task_row c (s.findRow id))) := rfl
      rw [h1, h2, ih _ (by rw [Store.enabled_save, hen]), Store.findRow_save s id c hen]

theorem run_saves_row_none_started (cs : List SaveCall) :
    (run_saves_row cs none).bind (·.started_at) =
      (cs.find? (fun c => c.status == .processing)).map (·.now) := by
  cases cs with
  | nil => rfl
  | cons c cs =>
      have h1 : run_saves_row (c :: cs) none =
          run_saves_row cs (some (save_task_row c none)) := rfl
      rw [h1, run_saves_row_some, Option.some_bind, row_fold_started,
        save_task_row_started_none, List.find?_cons]
      by_cases hp : c.status = .processing
      · simp [hp]
      · have hb : (c.status == TaskStatus.processing) = false := by simpa using hp
        simp [hp, hb]

theorem run_saves_row_none_completed (cs : List SaveCall) :
    (run_saves_row cs none).bind (·.completed_at) =
      (cs.find? (fun c => c.status.isTerminal)).map (·.now) := by
  cases cs with
  | nil => rfl
  | cons c cs =>
      have h1 : run_saves_row (c :: cs) none =
          run_saves_row cs (some (save_task_row c none)) := rfl
      rw [h1, run_saves_row_some, Option.some_bind, row_fold_completed,
        save_task_row_completed_none, List.find?_cons]
      by_cases hp : c.status.isTerminal = true
      · simp [hp]
      · simp [hp]

/-- C7.  For every sequence of `save_task` calls on one job id against an
enabled store that does not yet hold the id, the persisted `started_at` is the
timestamp of the first call whose status is `'processing'` (absent if there is
none), and the persisted `completed_at` is the timestamp of the first call
whose status is terminal — later calls never overwrite either column. -/
theorem started_at_and_completed_at_set_once
    (s : Store) (id : String) (cs : List SaveCall)
    (hen : s.enabled = true) (hfresh : s.findRow id = none) :
    ((s.run_saves id cs).findRow id).bind (·.started_at) =
        (cs.find? (fun c => c.status == .processing)).map (·.now) ∧
    ((s.run_saves id cs).findRow id).bind (·.completed_at) =
        (cs.find? (fun c => c.status.isTerminal)).map (·.now) := by
  rw [Store.findRow_run_saves s id cs hen, hfresh]
  exact ⟨run_saves_row_none_started cs, run_saves_row_none_completed cs⟩

/-- The call sequence of a job that is saved `pending` at time 5, `processing`
at 7 and again at 9, then `completed` at 11. -/
def demoSaveCalls : List SaveCall :=
  [⟨5, .pending, none, none, none⟩, ⟨7, .processing, none, none, none⟩,
   ⟨9, .processing, none, none, none⟩, ⟨11, .completed, none, none, none⟩]

/-- Witness for `started_at_and_completed_at_set_once` on `demoSaveCalls`:
the recorded `started_at` is 7 and the recorded `completed_at` is 11. -/
theorem started_at_and_completed_at_set_once_witness :
    (Store.mk true []).enabled = true ∧
    (Store.mk true []).findRow "t" = none ∧
    ((((Store.mk true []).run_saves "t" demoSaveCalls).findRow "t").bind (·.started_at) =
        (demoSaveCalls.find? (fun c => c.status == .processing)).map (·.now) ∧
      (((Store.mk true []).run_saves "t" demoSaveCalls).findRow "t").bind (·.completed_at) =
        (demoSaveCalls.find? (fun c => c.status.isTerminal)).map (·.now)) ∧
    (demoSaveCalls.find? (fun c => c.status == .processing)).map (·.now) = some 7 ∧
    (demoSaveCalls.find? (fun c => c.status.isTerminal)).map (·.now) = some 11 :=
  ⟨rfl, rfl, started_at_and_completed_at_set_once (Store.mk true []) "t" demoSaveCalls rfl rfl,
    by decide, by decide⟩

/-- C8.  A `save_task` call that passes only a status — exactly what
`TaskManager.process_task` does for its `'processing'`, `'completed'`,
`'timeout'` and `'cancelled'` updates — binds NULL into the `data` and
`output_dir` columns of the UPDATE (persistence.py lines 105-113), erasing the
payload and output directory stored when the job was created. -/
theorem status_update_clears_data_and_output_dir :
    (((Store.mk true []).save_task "t" ⟨0, .pending, some "payload", some "out", none⟩).findRow
        "t").map (·.data) = some (some "payload") ∧
    ((((Store.mk true []).save_task "t" ⟨0, .pending, some "payload", some "out", none⟩).save_task
        "t" ⟨1, .processing, none, none, none⟩).findRow "t").map (·.data) = some none ∧
    ((((Store.mk true []).save_task "t" ⟨0, .pending, some "payload", some "out", none⟩).save_task
        "t" ⟨1, .processing, none, none, none⟩).findRow "t").map (·.output_dir) = some none := by
  refine ⟨?_, ?_, ?_⟩ <;> rfl

/-- C9 counterexample.  With the store disabled, `delete_task` reports
failure (`False`, persistence.py line 236), not success as the claim states. -/
theorem delete_task_disabled_returns_false :
    ((Store.mk false []).delete_task "t").2 = false ∧ ¬ ((Store.mk false []).delete_task "t").2 = true := by
  exact ⟨rfl, by simp [Store.delete_task]⟩

/-- C9 as amended.  When the store is disabled every operation is a no-op:
`save_task` writes nothing, `get_task` reports absence, the list operations
report empty sequences, `cleanup_old_tasks` reports zero deletions — but
`delete_task` reports failure (`False`), not success. -/
theorem disabled_store_operations
    (s : Store) (hdis : s.enabled = false) (id : String) (c : SaveCall)
    (status : TaskStatus) (limit cutoff : Nat) :
    s.save_task id c = s ∧
    s.get_task id = none ∧
    s.get_tasks_by_status status limit = [] ∧
    s.get_pending_tasks = [] ∧
    s.cleanup_old_tasks cutoff = (s, 0) ∧
    s.delete_task id = (s, false) := by
  refine ⟨?_, ?_, ?_, ?_, ?_, ?_⟩ <;>
    simp [Store.save_task, Store.get_task, Store.get_tasks_by_status,
      Store.get_pending_tasks, Store.cleanup_old_tasks, Store.delete_task, hdis]

/-- Witness for `disabled_store_operations` at a concrete disabled store. -/
theorem disabled_store_operations_witness :
    (Store.mk false [("x", ⟨.pending, none, none, none, 0, none, none, 0⟩)]).enabled = false ∧
    ((Store.mk false [("x", ⟨.pending, none, none, none, 0, none, none, 0⟩)]).save_task "x"
        ⟨3, .processing, none, none, none⟩ =
      Store.mk false [("x", ⟨.pending, none, none, none, 0, none, none, 0⟩)] ∧
    (Store.mk false [("x", ⟨.pending, none, none, none, 0, none, none, 0⟩)]).get_task "x" = none ∧
    (Store.mk false [("x", ⟨.pending, none, none, none, 0, none, none, 0⟩)]).get_tasks_by_status
        .pending 100 = [] ∧
    (Store.mk false [("x", ⟨.pending, none, none, none, 0, none, none, 0⟩)]).get_pending_tasks = [] ∧
    (Store.mk false [("x", ⟨.pending, none, none, none, 0, none, none, 0⟩)]).cleanup_old_tasks 7 =
      (Store.mk false [("x", ⟨.pending, none, none, none, 0, none, none, 0⟩)], 0) ∧
    (Store.mk false [("x", ⟨.pending, none, none, none, 0, none, none, 0⟩)]).delete_task "x" =
      (Store.mk false [("x", ⟨.pending, none, none, none, 0, none, none, 0⟩)], false)) :=
  ⟨rfl, disabled_store_operations _ rfl "x" ⟨3, .processing, none, none, none⟩ .pending 100 7⟩

/-! ## Video mapping stage (`TaskManager._add_videos_to_processor`,
`VideoProcessor.add_video`) -/

/-- One element of the submitted `videos` list: `{"filename": ..., "path": ...}`. -/
structure VideoRef where
  filename : String
  path : String
  deriving DecidableEq, Repr

/-- A websocket notification sent during the mapping stage: the
`"progress" / "添加视频: {filename}"` message or the
`"error" / "视频文件不存在: {filename}"` message of task_manager.py
lines 201-208. -/
inductive MapMsg where
  | progress (filename : String)
  | errorMissing (filename : String)
  deriving DecidableEq, Repr

/-- `TaskManager._add_videos_to_processor` (task_manager.py lines 194-209)
fused with `VideoProcessor.add_video` (video_processor.py lines 66-76).
`onDisk path` records whether `os.path.exists(path)` holds; `sanitize` stands
for `sanitize_filename`.  For each video in order: if the file exists the
sanitized-name ↦ path entry is added to `processor.video_paths` and a progress
message is sent; on the first missing file `add_video` raises
`FileNotFoundError`, the handler sends one error message and `return`s from
the whole loop (line 209).  Returns the final mapping (in insertion order) and
the message list. -/
def add_videos_to_processor (onDisk : String → Bool) (sanitize : String → String) :
    List VideoRef → List (String × String) × List MapMsg
  | [] => ([], [])
  | v :: rest =>
    if onDisk v.path then
      let r := add_videos_to_processor onDisk sanitize rest
      ((sanitize v.filename, v.path) :: r.1, .progress v.filename :: r.2)
    else
      ([], [.errorMissing v.filename])

/-- C4 counterexample.  Submitting `[v1 (missing), v2 (present)]` maps
nothing at all: after the `FileNotFoundError` for `v1`, `v2` is never passed
to `add_video`, so a later video that is present on disk does not end up in
the processor's path mapping as the claim states. -/
theorem add_videos_stops_at_first_missing :
    (add_videos_to_processor (fun p => p == "p2") (fun n => n)
        [⟨"f1", "p1"⟩, ⟨"f2", "p2"⟩]) = ([], [.errorMissing "f1"]) ∧
    ¬ ("f2", "p2") ∈ (add_videos_to_processor (fun p => p == "p2") (fun n => n)
        [⟨"f1", "p1"⟩, ⟨"f2", "p2"⟩]).1 := by
  refine ⟨by decide, by decide⟩

/-- C4 as amended.  The mapping stage maps exactly the prefix of videos before
the first missing file (each with one progress message, in submission order);
at the first missing file it reports that one video and returns, so no later
video is mapped even when present on disk. -/
theorem add_videos_maps_prefix_before_missing
    (onDisk : String → Bool) (sanitize : String → String) (videos : List VideoRef) :
    add_videos_to_processor onDisk sanitize videos =
      ((videos.takeWhile (fun v => onDisk v.path)).map (fun v => (sanitize v.filename, v.path)),
       (videos.takeWhile (fun v => onDisk v.path)).map (fun v => MapMsg.progress v.filename) ++
         (match videos.dropWhile (fun v => onDisk v.path) with
          | [] => []
          | v :: _ => [MapMsg.errorMissing v.filename])) := by
  induction videos with
  | nil => rfl
  | cons v rest ih =>
      by_cases h : onDisk v.path = true
      · simp [add_videos_to_processor, h, List.takeWhile_cons, List.dropWhile_cons, ih]
      · have hb : onDisk v.path = false := by simpa using h
        simp [add_videos_to_processor, hb, List.takeWhile_cons, List.dropWhile_cons]

/-! ## Terminal notifications of one job
(`TaskManager.process_task`, `TaskManager._finalize_processing`) -/

/-- The websocket message types of `send_websocket_message`
(task_manager.py lines 310-320). -/
inductive MsgType where
  | start
  | progress
  | error
  | cancelled
  | complete
  deriving DecidableEq, Repr

/-- How one admitted job's execution ends.  The constructors cover the
branches of `process_task` (task_manager.py lines 83-141) for a run in which
the mapping and per-video stages succeed (so the stream carries no
intermediate `error`-typed stage messages):

* `success` — `_process_task_core` returns normally;
* `earlyFailure` — an exception raised before `_finalize_processing`
  (e.g. from `VideoProcessor` construction or `save_info_to_file`);
* `finalizeFailure` — an exception raised inside `_finalize_processing`;
* `cancelledAtCheckpoint` — a cancellation checkpoint raised
  `asyncio.CancelledError`;
* `timeoutExpired` — `asyncio.wait_for` raised `asyncio.TimeoutError`. -/
inductive CoreOutcome where
  | success
  | earlyFailure
  | finalizeFailure
  | cancelledAtCheckpoint
  | timeoutExpired
  deriving DecidableEq, Repr

/-- Messages sent by `_finalize_processing` itself (task_manager.py lines
256-278): one `complete` on success, and on failure one `error`
(lines 270-277) before re-raising towards `process_task`. -/
def finalize_processing_msgs (ok : Bool) : List MsgType :=
  if ok then [.complete] else [.error]

/-- The job-fate messages `process_task` and `_finalize_processing` emit for
one job, per outcome (task_manager.py lines 89-141 and 256-278):

* `success`: `_finalize_processing` sends `complete`, `process_task` adds
  nothing;
* `earlyFailure`: the generic handler (lines 130-141) sends one `error`;
* `finalizeFailure`: `_finalize_processing` sends `error` and re-raises
  (line 278), then the generic handler sends a second `error`;
* `cancelledAtCheckpoint`: the `CancelledError` handler (lines 116-128)
  sends one `cancelled`;
* `timeoutExpired`: the `TimeoutError` handler (lines 102-114) sends one
  `error` with the timeout body. -/
def process_task_fate_msgs : CoreOutcome → List MsgType
  | .success => finalize_processing_msgs true
  | .earlyFailure => [.error]
  | .finalizeFailure => finalize_processing_msgs false ++ [.error]
  | .cancelledAtCheckpoint => [.cancelled]
  | .timeoutExpired => [.error]

/-- C5 counterexample.  A job whose pipeline fails inside
`_finalize_processing` — with no intermediate stage problems, so every
`error`-typed message on its stream reports the terminal failure — receives
two `error`-typed messages, not the exactly-one terminal notification the
claim states. -/
theorem finalize_failure_sends_two_errors :
    process_task_fate_msgs .finalizeFailure = [.error, .error] ∧
    (process_task_fate_msgs .finalizeFailure).length ≠ 1 := by
  refine ⟨rfl, by decide⟩

/-- C5 as amended.  A completed job receives exactly one `complete`, a
timed-out job exactly one `error` (with the timeout body), a cancelled job
exactly one `cancelled`, and a failed job one terminal `error` — except that
a failure raised inside the finalize stage is reported twice, once by the
stage handler and once by the job-level handler. -/
theorem terminal_notification_counts (o : CoreOutcome) :
    (process_task_fate_msgs o).count .complete = (if o = .success then 1 else 0) ∧
    (process_task_fate_msgs o).count .cancelled =
      (if o = .cancelledAtCheckpoint then 1 else 0) ∧
    (process_task_fate_msgs o).count .error =
      (if o = .finalizeFailure then 2
       else if o = .earlyFailure ∨ o = .timeoutExpired then 1 else 0) ∧
    (process_task_fate_msgs o).count .start = 0 ∧
    (process_task_fate_msgs o).count .progress = 0 := by
  cases o <;> decide

/-! ## Clip merging and cutting (`app/core/clip_cutter.py`)

A clip of `clip_order.txt` / `clips_info`: source video name plus start and
end times.  The Python code keeps the times as `"HH:MM:SS.mmm"` strings and
converts with `time_to_seconds` / `seconds_to_time`; here they are the same
quantities in integer milliseconds, so that the source's second-valued
comparisons appear scaled by 1000. -/

structure Clip where
  video : String
  startMs : Nat
  endMs : Nat
  deriving DecidableEq, Repr

instance : Inhabited Clip := ⟨⟨"", 0, 0⟩⟩

/-- `ADJACENT_GAP_SECONDS` (clip_cutter.py line 74, config.py line 58:
default 2.0 s), in milliseconds. -/
def ADJACENT_GAP_MS : Int := 2000

/-- `END_PADDING_SECONDS` (clip_cutter.py line 75, config.py line 59:
default 1.0 s), in milliseconds. -/
def END_PADDING_MS : Nat := 1000

/-- `_pad_end` (clip_cutter.py lines 120-123): add `END_PADDING_SECONDS` to
the clip's end time. -/
def pad_end (c : Clip) : Clip :=
  { c with endMs := c.endMs + END_PADDING_MS }

/-- The fusion test of `merge_adjacent_clips` (clip_cutter.py lines 103-106):
same source video, and the next clip starts no more than
`ADJACENT_GAP_SECONDS` after the current end. -/
def adjacent_ok (cur next : Clip) : Bool :=
  cur.video == next.video && decide ((next.startMs : Int) - (cur.endMs : Int) ≤ ADJACENT_GAP_MS)

/-- The `while` loop of `merge_adjacent_clips` (clip_cutter.py lines 99-116):
`current` accumulates a run (keeping the first clip's video and start, taking
each fused clip's end); on a failed fusion test the padded `current` is
emitted and the next clip starts a new run; at the end the final `current` is
padded and emitted. -/
def merge_loop (current : Clip) : List Clip → List Clip
  | [] => [pad_end current]
  | next :: rest =>
    if adjacent_ok current next then
      merge_loop { current with endMs := next.endMs } rest
    else
      pad_end current :: merge_loop next rest

/-- `merge_adjacent_clips` (clip_cutter.py lines 89-117). -/
def merge_adjacent_clips : List Clip → List Clip
  | [] => []
  | c :: rest => merge_loop c rest

/-- Specification-side run decomposition: group the clip list into the runs
that `merge_adjacent_clips` fuses.  `cons_run` prepends a clip to the
decomposition of the rest, joining the first run when the fusion test
succeeds against its head. -/
def cons_run (c : Clip) : List (List Clip) → List (List Clip)
  | [] => [[c]]
  | [] :: rs => [c] :: [] :: rs
  | (d :: ds) :: rs =>
    if adjacent_ok c d then (c :: d :: ds) :: rs else [c] :: (d :: ds) :: rs

/-- The run decomposition of a clip list. -/
def runs_of : List Clip → List (List Clip)
  | [] => []
  | c :: rest => cons_run c (runs_of rest)

/-- What `merge_adjacent_clips` emits for one run: the first clip's video and
start, the last clip's end, padded by `END_PADDING_SECONDS`. -/
def emit_run (run : List Clip) : Clip :=
  pad_end ⟨(run.headD default).video, (run.headD default).startMs, (run.getLastD default).endMs⟩

/-- Adjacent clips inside a run all pass the fusion test. -/
def run_chain_ok : List Clip → Bool
  | [] => true
  | [_] => true
  | a :: b :: t => adjacent_ok a b && run_chain_ok (b :: t)

/-- Maximality of the runs: across each run boundary the fusion test fails. -/
def boundaries_ok : List (List Clip) → Bool
  | [] => true
  | [_] => true
  | r1 :: r2 :: t =>
    !adjacent_ok (r1.getLastD default) (r2.headD default) && boundaries_ok (r2 :: t)

theorem runs_of_ne_nil (clips : List Clip) : ∀ r ∈ runs_of clips, r ≠ [] := by
  induction clips with
  | nil => intro r hr; simp [runs_of] at hr
  | cons c rest ih =>
      intro r hr
      simp only [runs_of] at hr
      cases h : runs_of rest with
      | nil => rw [h] at hr; simp [cons_run] at hr; simp [hr]
      | cons r0 rs =>
          rw [h] at hr
          cases r0 with
          | nil => exact absurd rfl (ih [] (by rw [h]; exact List.mem_cons_self _ _))
          | cons d ds =>
              simp only [cons_run] at hr
              by_cases hadj : adjacent_ok c d = true
              · rw [if_pos hadj] at hr
                rcases List.mem_cons.mp hr with h1 | h1
                · simp [h1]
                · exact ih r (by rw [h]; exact List.mem_cons_of_mem _ h1)
              · rw [if_neg hadj] at hr
                rcases List.mem_cons.mp hr with h1 | h1
                · simp [h1]
                · exact ih r (by rw [h]; exact h1)

theorem runs_of_join (clips : List Clip) : (runs_of clips).flatten = clips := by
  induction clips with
  | nil => rfl
  | cons c rest ih =>
      simp only [runs_of]
      cases h : runs_of rest with
      | nil =>
          rw [h] at ih
          simp only [cons_run, List.flatten]
          simpa using ih
      | cons r0 rs =>
          rw [h] at ih
          cases r0 with
          | nil => simp [cons_run, List.flatten_cons] at ih ⊢; exact ih
          | cons d ds =>
              simp only [cons_run]
              by_cases hadj : adjacent_ok c d = true
              · rw [if_pos hadj]
                simp only [List.flatten_cons] at ih ⊢
                simp [ih]
              · rw [if_neg hadj]
                simp only [List.flatten_cons] at ih ⊢
                simp [ih]

/-- The fusion test only reads `video` and `endMs` of its left argument. -/
theorem adjacent_ok_left_eq (a b d : Clip) (hv : a.video = b.video)
    (he : a.endMs = b.endMs) : adjacent_ok a d = adjacent_ok b d := by
  simp [adjacent_ok, hv, he]

theorem merge_loop_runs (rest : List Clip) : ∀ cur : Clip,
    merge_loop cur rest = (cons_run cur (runs_of rest)).map emit_run := by
  induction rest with
  | nil =>
      intro cur
      simp [merge_loop, runs_of, cons_run, emit_run, pad_end]
  | cons next rest ih =>
      intro cur
      have hruns : runs_of (next :: rest) = cons_run next (runs_of rest) := rfl
      cases h : runs_of rest with
      | nil =>
          have hrest : rest = [] := by
            have := runs_of_join rest
            rw [h] at this
            simpa using this.symm
          subst hrest
          by_cases hcn : adjacent_ok cur next = true
          · simp [merge_loop, hcn, runs_of, cons_run, emit_run, pad_end, List.getLastD_cons]
          · simp [merge_loop, hcn, runs_of, cons_run, emit_run, pad_end, List.getLastD_cons]
      | cons r0 rs =>
          cases r0 with
          | nil =>
              exact absurd rfl (runs_of_ne_nil rest [] (by rw [h]; exact List.mem_cons_self _ _))
          | cons d ds =>
              have hgoalL : merge_loop cur (next :: rest) =
                  if adjacent_ok cur next then
                    merge_loop { cur with endMs := next.endMs } rest
                  else pad_end cur :: merge_loop next rest := rfl
              rw [hgoalL, hruns, h]
              by_cases hcn : adjacent_ok cur next = true
              · have hvideo : cur.video = next.video := by
                  have := hcn
                  simp only [adjacent_ok, Bool.and_eq_true, beq_iff_eq] at this
                  exact this.1
                have hleft : adjacent_ok { cur with endMs := next.endMs } d =
                    adjacent_ok next d :=
                  adjacent_ok_left_eq _ _ _ (by simp [hvideo]) (by simp)
                rw [if_pos hcn, ih { cur with endMs := next.endMs }, h]
                by_cases hnd : adjacent_ok next d = true
                · simp only [cons_run, hleft, hnd, if_true, hcn]
                  simp [emit_run, List.getLastD_cons]
                · have hnd' : adjacent_ok next d = false := by simpa using hnd
                  simp only [cons_run, hleft, hnd', Bool.false_eq_true, if_false, hcn, if_true]
                  simp [emit_run, List.getLastD_cons]
              · have hcn' : adjacent_ok cur next = false := by simpa using hcn
                rw [if_neg hcn, ih next, h]
                by_cases hnd : adjacent_ok next d = true
                · simp only [cons_run, hnd, if_true, hcn', Bool.false_eq_true, if_false]
                  simp [emit_run]
                · have hnd' : adjacent_ok next d = false := by simpa using hnd
                  simp only [cons_run, hnd', Bool.false_eq_true, if_false, hcn']
                  simp [emit_run]

/-- `merge_adjacent_clips` is exactly `emit_run` mapped over the run
decomposition. -/
theorem merge_adjacent_clips_eq_runs (clips : List Clip) :
    merge_adjacent_clips clips = (runs_of clips).map emit_run := by
  cases clips with
  | nil => rfl
  | cons c rest => exact merge_loop_runs rest c

theorem runs_of_chain (clips : List Clip) :
    ∀ r ∈ runs_of clips, run_chain_ok r = true := by
  induction clips with
  | nil => intro r hr; simp [runs_of] at hr
  | cons c rest ih =>
      intro r hr
      simp only [runs_of] at hr
      cases h : runs_of rest with
      | nil =>
          rw [h] at hr
          simp [cons_run] at hr
          simp [hr, run_chain_ok]
      | cons r0 rs =>
          rw [h] at hr
          cases r0 with
          | nil =>
              exact absurd rfl (runs_of_ne_nil rest [] (by rw [h]; exact List.mem_cons_self _ _))
          | cons d ds =>
              simp only [cons_run] at hr
              by_cases hadj : adjacent_ok c d = true
              · rw [if_pos hadj] at hr
                rcases List.mem_cons.mp hr with h1 | h1
                · subst h1
                  have hds : run_chain_ok (d :: ds) = true :=
                    ih (d :: ds) (by rw [h]; exact List.mem_cons_self _ _)
                  simp [run_chain_ok, hadj, hds]
                · exact ih r (by rw [h]; exact List.mem_cons_of_mem _ h1)
              · rw [if_neg hadj] at hr
                rcases List.mem_cons.mp hr with h1 | h1
                · subst h1; simp [run_chain_ok]
                · exact ih r (by rw [h]; exact h1)

theorem boundaries_ok_congr (r r' : List Clip)
    (h : r.getLastD default = r'.getLastD default) (rs : List (List Clip)) :
    boundaries_ok (r :: rs) = boundaries_ok (r' :: rs) := by
  cases rs with
  | nil => rfl
  | cons r2 t => simp only [boundaries_ok, h]

theorem runs_of_boundaries (clips : List Clip) :
    boundaries_ok (runs_of clips) = true := by
  induction clips with
  | nil => rfl
  | cons c rest ih =>
      simp only [runs_of]
      cases h : runs_of rest with
      | nil => simp [cons_run, boundaries_ok]
      | cons r0 rs =>
          rw [h] at ih
          cases r0 with
          | nil =>
              exact absurd rfl (runs_of_ne_nil rest [] (by rw [h]; exact List.mem_cons_self _ _))
          | cons d ds =>
              simp only [cons_run]
              by_cases hadj : adjacent_ok c d = true
              · rw [if_pos hadj]
                rw [boundaries_ok_congr (c :: d :: ds) (d :: ds)
                  (by simp [List.getLastD_cons]) rs]
                exact ih
              · rw [if_neg hadj]
                have hb : adjacent_ok c d = false := by simpa using hadj
                simp [boundaries_ok, List.getLastD_cons, hb, ih]

/-- C10.  `merge_adjacent_clips` decomposes its input into maximal runs of
consecutive clips from the same source video whose inter-clip gap is at most
`ADJACENT_GAP_SECONDS`, and emits one clip per run — spanning the run's first
clip's start to its last clip's end, with `END_PADDING_SECONDS` added to the
end — in the runs' original relative order (their concatenation is exactly
the input list). -/
theorem merge_adjacent_clips_spec (clips : List Clip) :
    merge_adjacent_clips clips = (runs_of clips).map emit_run ∧
    (runs_of clips).flatten = clips ∧
    (runs_of clips).all (fun r => !r.isEmpty && run_chain_ok r) = true ∧
    boundaries_ok (runs_of clips) = true := by
  refine ⟨merge_adjacent_clips_eq_runs clips, runs_of_join clips, ?_, runs_of_boundaries clips⟩
  rw [List.all_eq_true]
  intro r hr
  have h1 := runs_of_ne_nil clips r hr
  have h2 := runs_of_chain clips r hr
  simp [h2]
  simpa using h1

/-- One line of `clip_order.txt` as read by `process_clips` (clip_cutter.py
lines 207-213): a valid `video \t start \t end` entry, or a line that is
skipped (wrong field count). -/
inductive OrderLine where
  | entry (video : String) (startMs endMs : Nat)
  | invalid
  deriving DecidableEq, Repr

/-- The clip list `clips_info` built by `process_clips` (clip_cutter.py lines
205-223) strictly in file-line order: invalid lines are skipped, and entries
whose video has no path mapping are skipped.  `findPath` stands for
`get_video_path video_paths` (lines 78-86), an order-irrelevant lookup. -/
def build_clips_info (findPath : String → Option String) (lines : List OrderLine) : List Clip :=
  lines.filterMap fun l =>
    match l with
    | .entry v s e =>
        match findPath v with
        | some _ => some ⟨v, s, e⟩
        | none => none
    | .invalid => none

/-- The cutting loop of `process_clips` (clip_cutter.py lines 277-331),
starting at index `i`: clip `i` of the merged list is written to
`clip_{i+1}.mp4` when its cut succeeds (`cutOk i` — ffmpeg/MoviePy outcome and
the start-beyond-duration skips), and produces nothing otherwise.  Returns
the `(file index, clip)` pairs in generation order. -/
def cuts_from (cutOk : Nat → Bool) : Nat → List Clip → List (Nat × Clip)
  | _, [] => []
  | i, c :: rest =>
    if cutOk i then (i + 1, c) :: cuts_from cutOk (i + 1) rest
    else cuts_from cutOk (i + 1) rest

/-- `process_clips` (clip_cutter.py lines 191-332): parse `clip_order.txt` in
line order, merge adjacent clips, cut each merged clip to its indexed file. -/
def process_clips (findPath : String → Option String) (cutOk : Nat → Bool)
    (lines : List OrderLine) : List (Nat × Clip) :=
  cuts_from cutOk 0 (merge_adjacent_clips (build_clips_info findPath lines))

/-- The ordering step of `merge_video_clips` (clip_cutter.py lines 352-354):
the globbed `clip_*.mp4` files — here represented by their numeric indices, in
the filesystem's arbitrary order — are sorted by
`int(re.search(r"clip_(\d+).mp4", ...).group(1))` and concatenated in that
order. -/
def merge_video_clips_order (files : List Nat) : List Nat :=
  files.mergeSort (· ≤ ·)

theorem cuts_from_fst_gt (cutOk : Nat → Bool) (l : List Clip) :
    ∀ i, ∀ x ∈ cuts_from cutOk i l, i < x.1 := by
  induction l with
  | nil => intro i x hx; simp [cuts_from] at hx
  | cons c rest ih =>
      intro i x hx
      simp only [cuts_from] at hx
      by_cases h : cutOk i = true
      · rw [if_pos h] at hx
        rcases List.mem_cons.mp hx with h1 | h1
        · subst h1; simp
        · have := ih (i + 1) x h1; omega
      · rw [if_neg h] at hx
        have := ih (i + 1) x hx; omega

theorem cuts_from_fst_sorted (cutOk : Nat → Bool) (l : List Clip) :
    ∀ i, ((cuts_from cutOk i l).map Prod.fst).Sorted (· < ·) := by
  induction l with
  | nil => intro i; simp [cuts_from, List.Sorted]
  | cons c rest ih =>
      intro i
      simp only [cuts_from]
      by_cases h : cutOk i = true
      · rw [if_pos h]
        rw [List.map_cons, List.sorted_cons]
        refine ⟨?_, ih (i + 1)⟩
        intro b hb
        rcases List.mem_map.mp hb with ⟨x, hx, hbx⟩
        have := cuts_from_fst_gt cutOk rest (i + 1) x hx
        omega
      · rw [if_neg h]; exact ih (i + 1)

theorem cuts_from_snd_sublist (cutOk : Nat → Bool) (l : List Clip) :
    ∀ i, List.Sublist ((cuts_from cutOk i l).map Prod.snd) l := by
  induction l with
  | nil => intro i; simp [cuts_from]
  | cons c rest ih =>
      intro i
      simp only [cuts_from]
      by_cases h : cutOk i = true
      · rw [if_pos h]
        exact List.Sublist.cons₂ c (ih (i + 1))
      · rw [if_neg h]
        exact List.Sublist.cons c (ih (i + 1))

/-- C3.  The merged output concatenates the produced cut files in exactly
their generation order — sorting the globbed files by their numeric index
recovers the cutting loop's order, never a filename/duration resort — and
that order is the relative order of the parsed `clip_order.txt` list: the
output's segments are an order-preserving selection of the emitted runs of
the clip list, whose concatenation is exactly the parsed list. -/
theorem merge_output_preserves_clip_order
    (findPath : String → Option String) (cutOk : Nat → Bool)
    (lines : List OrderLine) (files : List Nat)
    (hglob : files.Perm ((process_clips findPath cutOk lines).map Prod.fst)) :
    merge_video_clips_order files = (process_clips findPath cutOk lines).map Prod.fst ∧
    List.Sublist ((process_clips findPath cutOk lines).map Prod.snd)
      ((runs_of (build_clips_info findPath lines)).map emit_run) ∧
    (runs_of (build_clips_info findPath lines)).flatten = build_clips_info findPath lines := by
  refine ⟨?_, ?_, runs_of_join _⟩
  · have hsortedP : ((process_clips findPath cutOk lines).map Prod.fst).Sorted (· ≤ ·) :=
      (cuts_from_fst_sorted cutOk _ 0).imp (fun h => Nat.le_of_lt h)
    have hsortedM : (files.mergeSort (· ≤ ·)).Sorted (· ≤ ·) := List.sorted_mergeSort' files
    have hperm : (files.mergeSort (· ≤ ·)).Perm
        ((process_clips findPath cutOk lines).map Prod.fst) :=
      (List.mergeSort_perm files _).trans hglob
    exact List.eq_of_perm_of_sorted hperm hsortedM hsortedP
  · show List.Sublist
      ((cuts_from cutOk 0 (merge_adjacent_clips (build_clips_info findPath lines))).map
        Prod.snd) _
    rw [merge_adjacent_clips_eq_runs]
    exact cuts_from_snd_sublist cutOk _ 0

/-- Witness for `merge_output_preserves_clip_order`: two clips of different
videos, both cuts succeeding, globbed in reversed filesystem order. -/
theorem merge_output_preserves_clip_order_witness :
    ([2, 1] : List Nat).Perm
      ((process_clips (fun _ => some "p") (fun _ => true)
        [.entry "a" 0 1000, .entry "b" 5000 6000]).map Prod.fst) ∧
    (merge_video_clips_order [2, 1] =
        (process_clips (fun _ => some "p") (fun _ => true)
          [.entry "a" 0 1000, .entry "b" 5000 6000]).map Prod.fst ∧
      List.Sublist
        ((process_clips (fun _ => some "p") (fun _ => true)
          [.entry "a" 0 1000, .entry "b" 5000 6000]).map Prod.snd)
        ((runs_of (build_clips_info (fun _ => some "p")
          [.entry "a" 0 1000, .entry "b" 5000 6000])).map emit_run) ∧
      (runs_of (build_clips_info (fun _ => some "p")
          [.entry "a" 0 1000, .entry "b" 5000 6000])).flatten =
        build_clips_info (fun _ => some "p")
          [.entry "a" 0 1000, .entry "b" 5000 6000]) :=
  ⟨by decide, merge_output_preserves_clip_order _ _ _ _ (by decide)⟩

/-! ## Analysis fallback (`app/core/ai_analyzer.py`) -/

/-- One (stripped) line of `merged_transcripts.txt` as classified by
`_create_fallback_clip_order` (ai_analyzer.py lines 166-179): a
`===filename===` header (carrying `line.strip("= ")`), a
`[start - end] text` timestamp line (carrying the two stripped time strings
that the `try` block extracts), or any other line, which is ignored. -/
inductive TLine where
  | header (name : String)
  | timeline (start_ stop : String)
  | blank
  deriving DecidableEq, Repr

/-- One entry of `clip_order` in the analyzer: video name and the two time
strings exactly as written to `clip_order.txt`. -/
structure FClip where
  video : String
  start_ : String
  stop : String
  deriving DecidableEq, Repr

/-- Python truthiness of the analyzer's `current_video` / `current_start` /
`current_end` variables: `None` and the empty string are falsy. -/
def pyTruthy : Option String → Bool
  | none => false
  | some s => !(s == "")

/-- The loop state of `_create_fallback_clip_order`: `current_video`,
`current_start`, `current_end` (ai_analyzer.py lines 162-164). -/
structure FbState where
  video : Option String
  start_ : Option String
  stop : Option String
  deriving DecidableEq, Repr

/-- The `if current_video and current_start and current_end` flush (lines
170-175 and 190-195): append one clip when all three are truthy. -/
def fb_flush (st : FbState) (acc : List FClip) : List FClip :=
  if pyTruthy st.video && pyTruthy st.start_ && pyTruthy st.stop then
    acc ++ [⟨st.video.getD "", st.start_.getD "", st.stop.getD ""⟩]
  else acc

/-- One iteration of the line loop (ai_analyzer.py lines 166-187): a header
flushes the previous section and resets the state; a timestamp line — only
when `current_video` is truthy — sets `current_start` if still `None` and
always overwrites `current_end`; other lines do nothing. -/
def fb_step (p : FbState × List FClip) (l : TLine) : FbState × List FClip :=
  match l with
  | .header n => (⟨some n, none, none⟩, fb_flush p.1 p.2)
  | .timeline s e =>
      if pyTruthy p.1.video then
        ({ p.1 with
            start_ := match p.1.start_ with | none => some s | some x => some x
            stop := some e }, p.2)
      else p
  | .blank => p

/-- `_create_fallback_clip_order` (ai_analyzer.py lines 147-204): the clip
list the fallback writes to `clip_order.txt`, in emission order. -/
def create_fallback_clip_order (lines : List TLine) : List FClip :=
  let p := lines.foldl fb_step (⟨none, none, none⟩, [])
  fb_flush p.1 p.2

/-- A line that does not start a new section. -/
def notHeader : TLine → Bool
  | .header _ => false
  | _ => true

/-- The time fields of a timestamp line. -/
def tlField : TLine → Option (String × String)
  | .timeline s e => some (s, e)
  | _ => none

/-- Specification-side decomposition of the transcript into its header-led
sections, each with the timestamp lines that follow it before the next
header.  Timestamp lines before any header belong to no section. -/
def sections_of : List TLine → List (String × List (String × String))
  | [] => []
  | .header n :: rest =>
      (n, (rest.takeWhile notHeader).filterMap tlField) ::
        sections_of (rest.dropWhile notHeader)
  | .timeline _ _ :: rest => sections_of rest
  | .blank :: rest => sections_of rest
termination_by l => l.length
decreasing_by
  · have h := (List.dropWhile_sublist notHeader (l := rest)).length_le
    simp only [List.length_cons]
    omega
  · simp
  · simp

/-- What the fallback emits for one section: nothing if the section has no
timestamp line, otherwise — provided the section name, the first line's start
and the last line's end are all non-empty — one clip from the first line's
start to the last line's end. -/
def emit_section (n : String) (tls : List (String × String)) : List FClip :=
  match tls with
  | [] => []
  | t :: rest =>
      let last := rest.getLastD t
      if !(n == "") && !(t.1 == "") && !(last.2 == "") then [⟨n, t.1, last.2⟩]
      else []

/-- Specification-side restatement of the fallback: one `emit_section` per
section, in section order. -/
def fallback_spec (lines : List TLine) : List FClip :=
  ((sections_of lines).map (fun q => emit_section q.1 q.2)).flatten

/-- The fold state while inside the section named `v`, having seen the
timestamp fields `tls` since its header. -/
def stOf (v : String) (tls : List (String × String)) : FbState :=
  if v == "" then ⟨some "", none, none⟩
  else ⟨some v, (tls.head?).map Prod.fst, (tls.getLast?).map Prod.snd⟩

theorem getLast?_cons_eq (t : String × String) (rest : List (String × String)) :
    (t :: rest).getLast? = some (rest.getLastD t) := by
  induction rest generalizing t with
  | nil => rfl
  | cons b l ih => rw [List.getLastD_cons]; exact ih b

theorem fb_flush_stOf (v : String) (tls : List (String × String)) (acc : List FClip) :
    fb_flush (stOf v tls) acc = acc ++ emit_section v tls := by
  by_cases hv : (v == "") = true
  · have hv' : v = "" := by simpa using hv
    subst hv'
    cases tls with
    | nil => simp [stOf, fb_flush, pyTruthy, emit_section]
    | cons t rest => simp [stOf, fb_flush, pyTruthy, emit_section]
  · have hv' : (v == "") = false := by simpa using hv
    cases tls with
    | nil => simp [stOf, hv', fb_flush, pyTruthy, emit_section]
    | cons t rest =>
        simp only [stOf, hv', Bool.false_eq_true, if_false, getLast?_cons_eq,
          List.head?_cons, Option.map_some]
        simp only [fb_flush, pyTruthy, emit_section, Option.getD_some, hv', Bool.not_false]
        by_cases h1 : (t.1 == "") = true
        · simp [h1]
        · have h1' : (t.1 == "") = false := by simpa using h1
          simp only [h1', Bool.not_false, Bool.true_and, Bool.and_true]
          split_ifs <;> simp_all

theorem fb_step_timeline (v : String) (tls : List (String × String))
    (acc : List FClip) (s e : String) :
    fb_step (stOf v tls, acc) (.timeline s e) = (stOf v (tls ++ [(s, e)]), acc) := by
  by_cases hv : (v == "") = true
  · have hv' : v = "" := by simpa using hv
    subst hv'
    simp [fb_step, stOf, pyTruthy]
  · have hv' : (v == "") = false := by simpa using hv
    cases tls with
    | nil => simp [fb_step, stOf, hv', pyTruthy]
    | cons t rest =>
        simp only [fb_step, stOf, hv', Bool.false_eq_true, if_false, pyTruthy,
          Bool.not_eq_true']
        simp [getLast?_cons_eq, List.getLastD_concat, hv']

theorem stOf_nil (n : String) : stOf n [] = ⟨some n, none, none⟩ := by
  by_cases hv : (n == "") = true
  · have hv' : n = "" := by simpa using hv
    subst hv'
    simp [stOf]
  · have hv' : (n == "") = false := by simpa using hv
    simp [stOf, hv']

/-- The analyzer loop resumed from state `st` with accumulator `acc`,
followed by the final flush (ai_analyzer.py lines 166-195). -/
def run_fb_fold (st : FbState) (acc : List FClip) (lines : List TLine) : List FClip :=
  let p := lines.foldl fb_step (st, acc)
  fb_flush p.1 p.2

theorem create_fallback_eq_run (lines : List TLine) :
    create_fallback_clip_order lines = run_fb_fold ⟨none, none, none⟩ [] lines := rfl

theorem run_fb_fold_section (lines : List TLine) : ∀ (v : String)
    (tls : List (String × String)) (acc : List FClip),
    run_fb_fold (stOf v tls) acc lines =
      acc ++ emit_section v (tls ++ (lines.takeWhile notHeader).filterMap tlField) ++
        fallback_spec (lines.dropWhile notHeader) := by
  induction lines with
  | nil =>
      intro v tls acc
      simp only [run_fb_fold, List.foldl_nil, fb_flush_stOf, List.takeWhile_nil,
        List.filterMap_nil, List.append_nil, List.dropWhile_nil]
      simp [fallback_spec, sections_of]
  | cons l rest ih =>
      intro v tls acc
      cases l with
      | header n =>
          have hstep : fb_step (stOf v tls, acc) (.header n) =
              (stOf n [], acc ++ emit_section v tls) := by
            simp [fb_step, stOf_nil, fb_flush_stOf]
          have h1 : run_fb_fold (stOf v tls) acc (.header n :: rest) =
              run_fb_fold (stOf n []) (acc ++ emit_section v tls) rest := by
            simp only [run_fb_fold, List.foldl_cons, hstep]
          rw [h1, ih n [] (acc ++ emit_section v tls)]
          have hspec : fallback_spec (TLine.header n :: rest) =
              emit_section n ((rest.takeWhile notHeader).filterMap tlField) ++
                fallback_spec (rest.dropWhile notHeader) := by
            simp [fallback_spec, sections_of]
          simp only [List.takeWhile_cons, notHeader, Bool.false_eq_true, if_false,
            List.filterMap_nil, List.append_nil, List.dropWhile_cons, hspec,
            List.nil_append, List.append_assoc]
      | timeline s e =>
          have h1 : run_fb_fold (stOf v tls) acc (.timeline s e :: rest) =
              run_fb_fold (stOf v (tls ++ [(s, e)])) acc rest := by
            simp only [run_fb_fold, List.foldl_cons, fb_step_timeline]
          rw [h1, ih v (tls ++ [(s, e)]) acc]
          simp only [List.takeWhile_cons, notHeader, if_true, List.filterMap_cons, tlField,
            List.dropWhile_cons, List.append_assoc, List.singleton_append]
      | blank =>
          have h1 : run_fb_fold (stOf v tls) acc (.blank :: rest) =
              run_fb_fold (stOf v tls) acc rest := by
            simp only [run_fb_fold, List.foldl_cons, fb_step]
          rw [h1, ih v tls acc]
          simp only [List.takeWhile_cons, notHeader, if_true, List.filterMap_cons, tlField,
            List.dropWhile_cons]

/-- `_create_fallback_clip_order` computes exactly the section-wise
specification: one clip per header section that has at least one timestamp
line (with non-empty name, first start and last end), spanning the section's
first timestamp to its last, in section order. -/
theorem create_fallback_clip_order_eq_spec (lines : List TLine) :
    create_fallback_clip_order lines = fallback_spec lines := by
  induction lines with
  | nil => simp [create_fallback_clip_order, fb_flush, pyTruthy, fallback_spec, sections_of]
  | cons l rest ih =>
      cases l with
      | header n =>
          rw [create_fallback_eq_run]
          have hstep : fb_step (⟨none, none, none⟩, ([] : List FClip)) (.header n) =
              (stOf n [], []) := by
            simp [fb_step, stOf_nil, fb_flush, pyTruthy]
          have h1 : run_fb_fold ⟨none, none, none⟩ [] (.header n :: rest) =
              run_fb_fold (stOf n []) [] rest := by
            simp only [run_fb_fold, List.foldl_cons, hstep]
          rw [h1, run_fb_fold_section rest n [] []]
          simp [fallback_spec, sections_of]
      | timeline s e =>
          rw [create_fallback_eq_run] at ih ⊢
          have h1 : run_fb_fold ⟨none, none, none⟩ [] (.timeline s e :: rest) =
              run_fb_fold ⟨none, none, none⟩ [] rest := by
            simp only [run_fb_fold, List.foldl_cons, fb_step, pyTruthy, Bool.false_eq_true,
              if_false]
          rw [h1, ih]
          simp [fallback_spec, sections_of]
      | blank =>
          rw [create_fallback_eq_run] at ih ⊢
          have h1 : run_fb_fold ⟨none, none, none⟩ [] (.blank :: rest) =
              run_fb_fold ⟨none, none, none⟩ [] rest := by
            simp only [run_fb_fold, List.foldl_cons, fb_step]
          rw [h1, ih]
          simp [fallback_spec, sections_of]

/-- Outcome of `_call_ai_api` after its retries (ai_analyzer.py lines
221-270): the completion text, or a final failure (exhausted retries /
non-retryable error). -/
inductive AIOutcome where
  | ok (text : String)
  | fail
  deriving DecidableEq, Repr

/-- The observable effect of `analyze_merged_transcripts`: the clip list
written to `clip_order.txt` (`none` when the file is not written) and the
function's return value (`none` models Python `None`, returned in fallback
mode). -/
structure AnalyzeEffect where
  clipOrder : Option (List FClip)
  result : Option String
  deriving DecidableEq, Repr

/-- `analyze_merged_transcripts` (ai_analyzer.py lines 82-144).  `transcript`
is the content of `merged_transcripts.txt` (empty list ⇔ empty content, which
raises `ValueError`); `hasApiKey` is whether `DEEPSEEK_API_KEY` is configured;
`ai` is the outcome of `_call_ai_api`; `parsed` stands for
`_parse_analysis_to_clip_order`; `fallback_to_transcription_only` is the
keyword argument (`True` in the pipeline's call through
`VideoProcessor.analyze_merged_transcripts`).  The fallback path (lines
111-114 and 125-128) writes `_create_fallback_clip_order`'s list — but only
when that list is non-empty (lines 197-204) — and returns `None`. -/
def analyze_merged_transcripts (transcript : List TLine) (hasApiKey : Bool)
    (ai : AIOutcome) (parsed : String → List FClip)
    (fallback_to_transcription_only : Bool) : Except String AnalyzeEffect :=
  if transcript.isEmpty then .error "empty merged transcript"
  else if !hasApiKey then
    if fallback_to_transcription_only then
      .ok ⟨if (create_fallback_clip_order transcript).isEmpty then none
           else some (create_fallback_clip_order transcript), none⟩
    else .error "DEEPSEEK_API_KEY not configured"
  else
    match ai with
    | .ok text => .ok ⟨some (parsed text), some text⟩
    | .fail =>
        if fallback_to_transcription_only then
          .ok ⟨if (create_fallback_clip_order transcript).isEmpty then none
               else some (create_fallback_clip_order transcript), none⟩
        else .error "AI analysis failed"

/-- C6 counterexample.  A transcript whose only video's first timestamp line
starts at `00:00:05.000` yields a fallback segment starting at
`00:00:05.000`, not at the video's beginning `00:00:00.000` — the segment
spans the transcribed range, not the whole video as the claim states. -/
theorem fallback_clip_starts_at_first_transcript_time :
    create_fallback_clip_order
        [.header "v1", .timeline "00:00:05.000" "00:00:10.000"] =
      [⟨"v1", "00:00:05.000", "00:00:10.000"⟩] ∧
    ¬ (FClip.mk "v1" "00:00:05.000" "00:00:10.000").start_ = "00:00:00.000" := by
  refine ⟨by decide, by decide⟩

/-- C6 as amended.  When the content-analysis call cannot run (missing API
key) or fails after retries, `analyze_merged_transcripts` with the pipeline's
default fallback does not raise: it writes a clip_order holding one segment
per video section of the merged transcript that has at least one timestamp
line, in the transcript's (submission) order, each segment spanning that
video's first transcript timestamp to its last — and returns `None`, letting
the job proceed to cut/merge (provided at least one such segment exists). -/
theorem fallback_clip_order_spec (transcript : List TLine) (hasApiKey : Bool)
    (ai : AIOutcome) (parsed : String → List FClip)
    (hne : transcript ≠ []) (hfail : hasApiKey = false ∨ ai = .fail) :
    create_fallback_clip_order transcript = fallback_spec transcript ∧
    analyze_merged_transcripts transcript hasApiKey ai parsed true =
      .ok ⟨if (fallback_spec transcript).isEmpty then none
           else some (fallback_spec transcript), none⟩ := by
  refine ⟨create_fallback_clip_order_eq_spec transcript, ?_⟩
  have hne' : transcript.isEmpty = false := by
    cases transcript with
    | nil => exact absurd rfl hne
    | cons a l => rfl
  rcases hfail with hk | hai
  · subst hk
    simp [analyze_merged_transcripts, hne', create_fallback_clip_order_eq_spec]
  · subst hai
    cases hasApiKey with
    | false => simp [analyze_merged_transcripts, hne', create_fallback_clip_order_eq_spec]
    | true => simp [analyze_merged_transcripts, hne', create_fallback_clip_order_eq_spec]

/-- Witness for `fallback_clip_order_spec`: a transcript with one video whose
lines span `00:00:00.000`–`00:00:02.000`, analyzed with no API key. -/
theorem fallback_clip_order_spec_witness :
    ([.header "v", .timeline "00:00:00.000" "00:00:02.000"] : List TLine) ≠ [] ∧
    (create_fallback_clip_order
        [.header "v", .timeline "00:00:00.000" "00:00:02.000"] =
      fallback_spec [.header "v", .timeline "00:00:00.000" "00:00:02.000"] ∧
    analyze_merged_transcripts
        [.header "v", .timeline "00:00:00.000" "00:00:02.000"] false .fail
        (fun _ => []) true =
      .ok ⟨if (fallback_spec
              [.header "v", .timeline "00:00:00.000" "00:00:02.000"]).isEmpty then none
           else some (fallback_spec
              [.header "v", .timeline "00:00:00.000" "00:00:02.000"]), none⟩) ∧
    create_fallback_clip_order
        [.header "v", .timeline "00:00:00.000" "00:00:02.000"] =
      [⟨"v", "00:00:00.000", "00:00:02.000"⟩] :=
  ⟨by decide,
    fallback_clip_order_spec _ false .fail (fun _ => []) (by decide) (Or.inl rfl),
    by decide⟩

/-! ## Scheduler / admission transition system (`app/core/task_manager.py`)

The `TaskManager` runs on a single-threaded asyncio event loop, so execution
is a sequence of atomic code regions separated by `await` suspension points.
The system below has one step per such region that touches the shared
scheduler state.  Task ids are naturals; the spec declares ids unique, so the
submit step requires a fresh id (`add_task` would overwrite an existing
entry).  Entries of `TaskManager.tasks` are never deleted, only their
`status` field matters here. -/

/-- One spawned `process_task` coroutine (`asyncio.create_task` at
task_manager.py line 69): its task id, and whether it has executed its entry
region (lines 73-87, which set the status to `'processing'`). -/
structure ExecUnit where
  id : Nat
  started : Bool
  deriving DecidableEq, Repr

/-- The shared scheduler state: the in-memory task table (insertion order,
status field only), `task_queue`, the `processing_tasks` counter, the live
`process_task` coroutines, and the `_cancelled_tasks` set. -/
structure TMState where
  tasks : List (Nat × TaskStatus)
  queue : List Nat
  processing_tasks : Nat
  execs : List ExecUnit
  cancelled : Finset Nat
  deriving DecidableEq

/-- `self.tasks.get(id)`, restricted to the status field. -/
def lookupSt (tasks : List (Nat × TaskStatus)) (id : Nat) : Option TaskStatus :=
  (tasks.find? (fun p => p.1 == id)).map (·.2)

/-- `self.tasks[id]['status'] = st`. -/
def setSt (tasks : List (Nat × TaskStatus)) (id : Nat) (st : TaskStatus) :
    List (Nat × TaskStatus) :=
  tasks.map (fun p => if p.1 = id then (id, st) else p)

/-- `add_task` (task_manager.py lines 30-57): record the task as `'pending'`
and enqueue its id.  (The subsequent `process_next_task` call on line 59 is
the separate `admit` step.) -/
def submit_post (s : TMState) (id : Nat) : TMState :=
  { s with tasks := s.tasks ++ [(id, .pending)], queue := s.queue ++ [id] }

/-- `process_next_task` (lines 61-69) when it admits: the region from the
counter check to `asyncio.create_task` has no suspension point that yields to
another region (the `queue.get()` on line 68 never blocks because emptiness
was checked on line 66), so check, increment and dequeue are one atomic step. -/
def admit_post (s : TMState) (id : Nat) (rest : List Nat) : TMState :=
  { s with queue := rest, processing_tasks := s.processing_tasks + 1,
           execs := s.execs ++ [⟨id, false⟩] }

/-- The entry region of `process_task` (lines 73-87) for an id present in
`self.tasks`: unconditionally sets the status to `'processing'` (line 85). -/
def start_run_post (s : TMState) (id : Nat) : TMState :=
  { s with tasks := setSt s.tasks id .processing,
           execs := s.execs.map (fun e => if e = ⟨id, false⟩ then ⟨id, true⟩ else e) }

/-- The entry region of `process_task` for an id absent from `self.tasks`
(lines 74-78): decrement and return.  Unreachable in fact, since tasks are
never deleted. -/
def start_missing_post (s : TMState) (id : Nat) : TMState :=
  { s with execs := s.execs.erase ⟨id, false⟩,
           processing_tasks := s.processing_tasks - 1 }

/-- A `process_task` exit region (lines 89-150): optionally set a final
status, optionally discard the id from `_cancelled_tasks` (only the
`CancelledError` handler does, line 119), then the `finally` block decrements
the counter and the coroutine ends. -/
def finish_post (s : TMState) (id : Nat) (st? : Option TaskStatus) (dropCancel : Bool) :
    TMState :=
  { s with
    tasks := match st? with | some st => setSt s.tasks id st | none => s.tasks
    execs := s.execs.erase ⟨id, true⟩
    processing_tasks := s.processing_tasks - 1
    cancelled := if dropCancel then s.cancelled.erase id else s.cancelled }

/-- `cancel_task` on a `'pending'` task (lines 294-302): flag it and mark it
`'cancelled'` directly.  Its id stays in `task_queue`. -/
def cancel_pending_post (s : TMState) (id : Nat) : TMState :=
  { s with tasks := setSt s.tasks id .cancelled, cancelled := insert id s.cancelled }

/-- `cancel_task` on a `'processing'` task (lines 294, 304-306): only flag it;
the running executor is expected to observe the flag. -/
def cancel_processing_post (s : TMState) (id : Nat) : TMState :=
  { s with cancelled := insert id s.cancelled }

/-- The atomic steps of the task manager with `max_concurrent_tasks = k`.

The five `finish` steps are the exit paths of `process_task`:

* `finish_completed` — `_process_task_core` returned normally and the line 96
  guard `task_id not in self._cancelled_tasks` passed: status `'completed'`;
* `finish_stuck` — the core returned normally but the id was in
  `_cancelled_tasks` (cancelled after the last checkpoint, during
  `_finalize_processing`): the guard fails and **no** status is assigned, the
  task stays `'processing'` with no executor;
* `finish_error` — an exception escaped the core: status `'error'`;
* `finish_timeout` — `asyncio.wait_for` expired: status `'timeout'`;
* `finish_cancelled` — a cancellation checkpoint raised
  `asyncio.CancelledError`, which only happens while the id is flagged:
  status `'cancelled'` and the flag is discarded (line 119). -/
inductive TMStep (k : Nat) : TMState → TMState → Prop where
  | submit (s : TMState) (id : Nat) (h : lookupSt s.tasks id = none) :
      TMStep k s (submit_post s id)
  | admit_next (s : TMState) (id : Nat) (rest : List Nat) (hq : s.queue = id :: rest)
      (hc : s.processing_tasks < k) :
      TMStep k s (admit_post s id rest)
  | start_run (s : TMState) (id : Nat) (he : (⟨id, false⟩ : ExecUnit) ∈ s.execs)
      (ht : (lookupSt s.tasks id).isSome) :
      TMStep k s (start_run_post s id)
  | start_missing (s : TMState) (id : Nat) (he : (⟨id, false⟩ : ExecUnit) ∈ s.execs)
      (ht : lookupSt s.tasks id = none) :
      TMStep k s (start_missing_post s id)
  | finish_completed (s : TMState) (id : Nat) (he : (⟨id, true⟩ : ExecUnit) ∈ s.execs)
      (hc : id ∉ s.cancelled) :
      TMStep k s (finish_post s id (some .completed) false)
  | finish_stuck (s : TMState) (id : Nat) (he : (⟨id, true⟩ : ExecUnit) ∈ s.execs)
      (hc : id ∈ s.cancelled) :
      TMStep k s (finish_post s id none false)
  | finish_error (s : TMState) (id : Nat) (he : (⟨id, true⟩ : ExecUnit) ∈ s.execs) :
      TMStep k s (finish_post s id (some .error) false)
  | finish_timeout (s : TMState) (id : Nat) (he : (⟨id, true⟩ : ExecUnit) ∈ s.execs) :
      TMStep k s (finish_post s id (some .timeout) false)
  | finish_cancelled (s : TMState) (id : Nat) (he : (⟨id, true⟩ : ExecUnit) ∈ s.execs)
      (hc : id ∈ s.cancelled) :
      TMStep k s (finish_post s id (some .cancelled) true)
  | cancel_pending (s : TMState) (id : Nat) (h : lookupSt s.tasks id = some .pending) :
      TMStep k s (cancel_pending_post s id)
  | cancel_processing (s : TMState) (id : Nat)
      (h : lookupSt s.tasks id = some .processing) :
      TMStep k s (cancel_processing_post s id)

/-- The task manager's initial state (task_manager.py lines 19-28). -/
def tm_init : TMState := ⟨[], [], 0, [], ∅⟩

/-- States reachable from startup under `max_concurrent_tasks = k`. -/
def TMReachable (k : Nat) (s : TMState) : Prop :=
  Relation.ReflTransGen (TMStep k) tm_init s

/-! ### Lookup and update lemmas for the task table -/

theorem find_setSt (t : List (Nat × TaskStatus)) (id : Nat) (st : TaskStatus) (j : Nat) :
    (setSt t id st).find? (fun p => p.1 == j) =
      (t.find? (fun p => p.1 == j)).map (fun p => if p.1 = id then (id, st) else p) := by
  unfold setSt
  rw [List.find?_map]
  have hfun : ((fun p : Nat × TaskStatus => p.1 == j) ∘
      fun p => if p.1 = id then (id, st) else p) =
      (fun p : Nat × TaskStatus => p.1 == j) := by
    funext p
    by_cases hp : p.1 = id
    · simp [Function.comp, hp]
    · simp [Function.comp, hp]
  rw [hfun]

theorem lookupSt_setSt_self (t : List (Nat × TaskStatus)) (id : Nat) (st : TaskStatus)
    (h : (lookupSt t id).isSome) : lookupSt (setSt t id st) id = some st := by
  unfold lookupSt at h ⊢
  rw [find_setSt]
  cases hf : t.find? (fun p => p.1 == id) with
  | none => rw [hf] at h; simp at h
  | some p =>
      have hpid : (p.1 == id) = true := by
        have := List.find?_some hf
        simpa using this
      have hpe : p.1 = id := by simpa using hpid
      simp [hpe]

theorem lookupSt_setSt_ne (t : List (Nat × TaskStatus)) (id : Nat) (st : TaskStatus)
    (j : Nat) (h : j ≠ id) : lookupSt (setSt t id st) j = lookupSt t j := by
  unfold lookupSt
  rw [find_setSt]
  cases hf : t.find? (fun p => p.1 == j) with
  | none => rfl
  | some p =>
      have hpj : p.1 = j := by
        have := List.find?_some hf
        simpa using this
      have hpne : ¬ p.1 = id := by rw [hpj]; exact h
      simp [hpne]

theorem lookupSt_setSt_isSome (t : List (Nat × TaskStatus)) (id : Nat) (st : TaskStatus)
    (j : Nat) : (lookupSt (setSt t id st) j).isSome = (lookupSt t j).isSome := by
  unfold lookupSt
  rw [find_setSt]
  cases hf : t.find? (fun p => p.1 == j) <;> simp

theorem keys_setSt (t : List (Nat × TaskStatus)) (id : Nat) (st : TaskStatus) :
    (setSt t id st).map (·.1) = t.map (·.1) := by
  unfold setSt
  rw [List.map_map]
  congr 1
  funext p
  by_cases hp : p.1 = id
  · simp [Function.comp, hp]
  · simp [Function.comp, hp]

theorem lookupSt_append_of_isSome (t l : List (Nat × TaskStatus)) (j : Nat)
    (h : (lookupSt t j).isSome) : lookupSt (t ++ l) j = lookupSt t j := by
  unfold lookupSt at h ⊢
  rw [List.find?_append]
  cases hf : t.find? (fun p => p.1 == j) with
  | none => rw [hf] at h; simp at h
  | some p => simp

theorem lookupSt_append_self (t : List (Nat × TaskStatus)) (id : Nat) (st : TaskStatus)
    (h : lookupSt t id = none) : lookupSt (t ++ [(id, st)]) id = some st := by
  unfold lookupSt at h ⊢
  have hnone : t.find? (fun p => p.1 == id) = none := by
    cases hf : t.find? (fun p => p.1 == id) with
    | none => rfl
    | some p => rw [hf] at h; simp at h
  rw [List.find?_append, hnone]
  simp

theorem lookupSt_none_iff (t : List (Nat × TaskStatus)) (id : Nat) :
    lookupSt t id = none ↔ id ∉ t.map (·.1) := by
  unfold lookupSt
  constructor
  · intro h hmem
    rcases List.mem_map.mp hmem with ⟨p, hp, hpid⟩
    have := List.find?_eq_none.mp (by
      cases hf : t.find? (fun p => p.1 == id) with
      | none => rfl
      | some q => rw [hf] at h; simp at h) p hp
    simp [hpid] at this
  · intro h
    rw [List.find?_eq_none.mpr]
    · rfl
    · intro p hp
      simp only [beq_iff_eq]
      intro hpid
      exact h (List.mem_map.mpr ⟨p, hp, hpid⟩)

theorem lookupSt_isSome_of_mem_keys (t : List (Nat × TaskStatus)) (id : Nat)
    (h : id ∈ t.map (·.1)) : (lookupSt t id).isSome := by
  cases hf : lookupSt t id with
  | none => exact absurd h ((lookupSt_none_iff t id).mp hf)
  | some st => rfl

/-- Updating the started flag of one executor does not change the id list. -/
theorem execIds_start_update (execs : List ExecUnit) (id : Nat) :
    (execs.map (fun e => if e = ⟨id, false⟩ then ⟨id, true⟩ else e)).map (·.id) =
      execs.map (·.id) := by
  rw [List.map_map]
  congr 1
  funext e
  by_cases he : e = ⟨id, false⟩
  · simp [Function.comp, he]
  · simp [Function.comp, he]

/-- In a list whose images under `f` are distinct, erasing an element removes
its image entirely. -/
theorem not_mem_map_erase {α β : Type} [DecidableEq α] [DecidableEq β] (f : α → β)
    (l : List α) (a : α) (hnd : (l.map f).Nodup) (ha : a ∈ l) :
    f a ∉ (l.erase a).map f := by
  induction l with
  | nil => simp at ha
  | cons b t ih =>
      by_cases hb : b = a
      · subst hb
        rw [List.erase_cons_head]
        simp only [List.map_cons, List.nodup_cons] at hnd
        exact hnd.1
      · rw [List.erase_cons_tail (by simpa using hb)]
        have hat : a ∈ t := by
          rcases List.mem_cons.mp ha with h1 | h1
          · exact absurd h1.symm hb
          · exact h1
        simp only [List.map_cons, List.nodup_cons] at hnd
        intro hmem
        rw [List.map_cons] at hmem
        rcases List.mem_cons.mp hmem with h1 | h1
        · have hmt : f a ∈ t.map f := List.mem_map.mpr ⟨a, hat, rfl⟩
          rw [h1] at hmt
          exact hnd.1 hmt
        · exact ih hnd.2 hat h1

/-- The scheduler's inductive invariant: the `processing_tasks` counter
equals the number of live executors and never exceeds the limit; queued ids
and executor ids are pairwise distinct; the task table has distinct keys; and
every queued id and every executor's id has a task record. -/
structure TMInv (k : Nat) (s : TMState) : Prop where
  counter_eq : s.processing_tasks = s.execs.length
  counter_le : s.processing_tasks ≤ k
  nodup : (s.queue ++ s.execs.map (·.id)).Nodup
  keys_nodup : (s.tasks.map (·.1)).Nodup
  queue_has : ∀ id ∈ s.queue, (lookupSt s.tasks id).isSome
  exec_has : ∀ e ∈ s.execs, (lookupSt s.tasks e.id).isSome

theorem tm_inv_init (k : Nat) : TMInv k tm_init := by
  refine ⟨rfl, Nat.zero_le k, ?_, ?_, ?_, ?_⟩ <;> simp [tm_init]

theorem tm_inv_finish (k : Nat) (s : TMState) (id : Nat) (st? : Option TaskStatus)
    (dropCancel : Bool) (hinv : TMInv k s) (he : (⟨id, true⟩ : ExecUnit) ∈ s.execs) :
    TMInv k (finish_post s id st? dropCancel) := by
  have hkeys : (finish_post s id st? dropCancel).tasks.map (·.1) = s.tasks.map (·.1) := by
    cases st? with
    | none => rfl
    | some st => exact keys_setSt s.tasks id st
  have hsome : ∀ j, ((lookupSt (finish_post s id st? dropCancel).tasks j).isSome) =
      ((lookupSt s.tasks j).isSome) := by
    intro j
    cases st? with
    | none => rfl
    | some st => exact lookupSt_setSt_isSome s.tasks id st j
  refine ⟨?_, ?_, ?_, ?_, ?_, ?_⟩
  · show s.processing_tasks - 1 = (s.execs.erase ⟨id, true⟩).length
    rw [List.length_erase_of_mem he, hinv.counter_eq]
  · exact Nat.le_trans (Nat.sub_le _ _) hinv.counter_le
  · show (s.queue ++ (s.execs.erase ⟨id, true⟩).map (·.id)).Nodup
    exact ((List.erase_sublist _ _).map _ |>.append_left s.queue).nodup hinv.nodup
  · rw [hkeys]; exact hinv.keys_nodup
  · intro j hj
    rw [hsome j]
    exact hinv.queue_has j hj
  · intro e hee
    rw [hsome e.id]
    exact hinv.exec_has e (List.mem_of_mem_erase hee)

theorem tm_inv_step (k : Nat) (s s' : TMState) (hinv : TMInv k s)
    (hstep : TMStep k s s') : TMInv k s' := by
  cases hstep with
  | submit id h =>
      have hidq : id ∉ s.queue := by
        intro hm
        have h1 := hinv.queue_has id hm
        rw [h] at h1
        simp at h1
      have hide : id ∉ s.execs.map (·.id) := by
        intro hm
        rcases List.mem_map.mp hm with ⟨e, hee, hei⟩
        have h1 := hinv.exec_has e hee
        rw [hei, h] at h1
        simp at h1
      have hidk : id ∉ s.tasks.map (·.1) := (lookupSt_none_iff _ _).mp h
      refine ⟨hinv.counter_eq, hinv.counter_le, ?_, ?_, ?_, ?_⟩
      · show ((s.queue ++ [id]) ++ s.execs.map (·.id)).Nodup
        rw [List.append_assoc, List.singleton_append, List.nodup_middle]
        exact List.nodup_cons.mpr
          ⟨by simp [hidq, hide], hinv.nodup⟩
      · show ((s.tasks ++ [(id, TaskStatus.pending)]).map (·.1)).Nodup
        rw [List.map_append]
        have h2 : (s.tasks.map (·.1) ++ [id]).Nodup := by
          rw [show s.tasks.map (·.1) ++ [id] = s.tasks.map (·.1) ++ id :: [] from rfl,
            List.nodup_middle]
          exact List.nodup_cons.mpr ⟨by simp [hidk], by simpa using hinv.keys_nodup⟩
        simpa using h2
      · intro j hj
        show (lookupSt (s.tasks ++ [(id, TaskStatus.pending)]) j).isSome = true
        rcases List.mem_append.mp hj with h1 | h1
        · rw [lookupSt_append_of_isSome _ _ _ (hinv.queue_has j h1)]
          exact hinv.queue_has j h1
        · have hji : j = id := by simpa using h1
          subst hji
          rw [lookupSt_append_self _ _ _ h]
          rfl
      · intro e hee
        show (lookupSt (s.tasks ++ [(id, TaskStatus.pending)]) e.id).isSome = true
        rw [lookupSt_append_of_isSome _ _ _ (hinv.exec_has e hee)]
        exact hinv.exec_has e hee
  | admit_next id rest hq hc =>
      have hnd := hinv.nodup
      rw [hq] at hnd
      refine ⟨?_, ?_, ?_, hinv.keys_nodup, ?_, ?_⟩
      · show s.processing_tasks + 1 = (s.execs ++ [(⟨id, false⟩ : ExecUnit)]).length
        rw [List.length_append, hinv.counter_eq]
        rfl
      · exact hc
      · show (rest ++ (s.execs ++ [(⟨id, false⟩ : ExecUnit)]).map (·.id)).Nodup
        rw [List.map_append]
        simp only [List.map_cons, List.map_nil]
        rw [← List.append_assoc, List.nodup_middle]
        simpa using hnd
      · intro j hj
        exact hinv.queue_has j (by rw [hq]; exact List.mem_cons_of_mem _ hj)
      · intro e hee
        rcases List.mem_append.mp hee with h1 | h1
        · exact hinv.exec_has e h1
        · have he : e = ⟨id, false⟩ := by simpa using h1
          subst he
          exact hinv.queue_has id (by rw [hq]; exact List.mem_cons_self _ _)
  | start_run id he ht =>
      refine ⟨?_, hinv.counter_le, ?_, ?_, ?_, ?_⟩
      · show s.processing_tasks =
          (s.execs.map (fun e => if e = ⟨id, false⟩ then ⟨id, true⟩ else e)).length
        rw [List.length_map]
        exact hinv.counter_eq
      · show (s.queue ++
          (s.execs.map (fun e => if e = ⟨id, false⟩ then ⟨id, true⟩ else e)).map (·.id)).Nodup
        rw [execIds_start_update]
        exact hinv.nodup
      · show ((setSt s.tasks id .processing).map (·.1)).Nodup
        rw [keys_setSt]
        exact hinv.keys_nodup
      · intro j hj
        show (lookupSt (setSt s.tasks id .processing) j).isSome
        rw [lookupSt_setSt_isSome]
        exact hinv.queue_has j hj
      · intro e hee
        rcases List.mem_map.mp hee with ⟨e0, he0, heq⟩
        have hid : e.id = e0.id := by
          subst heq
          by_cases h0 : e0 = ⟨id, false⟩ <;> simp [h0]
        show (lookupSt (setSt s.tasks id .processing) e.id).isSome
        rw [lookupSt_setSt_isSome, hid]
        exact hinv.exec_has e0 he0
  | start_missing id he ht =>
      have h1 := hinv.exec_has ⟨id, false⟩ he
      rw [ht] at h1
      simp at h1
  | finish_completed id he hc => exact tm_inv_finish k s id (some .completed) false hinv he
  | finish_stuck id he hc => exact tm_inv_finish k s id none false hinv he
  | finish_error id he => exact tm_inv_finish k s id (some .error) false hinv he
  | finish_timeout id he => exact tm_inv_finish k s id (some .timeout) false hinv he
  | finish_cancelled id he hc => exact tm_inv_finish k s id (some .cancelled) true hinv he
  | cancel_pending id h =>
      refine ⟨hinv.counter_eq, hinv.counter_le, hinv.nodup, ?_, ?_, ?_⟩
      · show ((setSt s.tasks id .cancelled).map (·.1)).Nodup
        rw [keys_setSt]
        exact hinv.keys_nodup
      · intro j hj
        show (lookupSt (setSt s.tasks id .cancelled) j).isSome
        rw [lookupSt_setSt_isSome]
        exact hinv.queue_has j hj
      · intro e hee
        show (lookupSt (setSt s.tasks id .cancelled) e.id).isSome
        rw [lookupSt_setSt_isSome]
        exact hinv.exec_has e hee
  | cancel_processing id h =>
      exact ⟨hinv.counter_eq, hinv.counter_le, hinv.nodup, hinv.keys_nodup,
        hinv.queue_has, hinv.exec_has⟩

theorem tm_inv_reachable (k : Nat) (s : TMState) (h : TMReachable k s) : TMInv k s := by
  induction h with
  | refl => exact tm_inv_init k
  | tail hr hstep ih => exact tm_inv_step k _ _ ih hstep

theorem tm_inv_star (k : Nat) {s s' : TMState} (hinv : TMInv k s)
    (h : Relation.ReflTransGen (TMStep k) s s') : TMInv k s' := by
  induction h with
  | refl => exact hinv
  | tail hr hstep ih => exact tm_inv_step k _ _ ih hstep

/-- The number of table entries whose status is `'processing'`. -/
def count_processing (s : TMState) : Nat :=
  (s.tasks.filter (fun p => p.2 == TaskStatus.processing)).length

/-- The number of live executors whose task currently holds `'processing'`. -/
def live_processing (s : TMState) : Nat :=
  (s.execs.filter (fun e => lookupSt s.tasks e.id == some TaskStatus.processing)).length

/-- C1 as amended.  In every reachable state of the task manager with
`max_concurrent_tasks = k`, the `processing_tasks` counter is at most `k`
(admission increments only below the limit, and every executor exit
decrements exactly once — this is the `counter_eq` component of `TMInv`), and
at most `k` jobs hold `'processing'` status with a live executor.  (The
count of all `'processing'`-status jobs can exceed `k`: see the stuck-task
trace.) -/
theorem processing_counter_le_max (k : Nat) (s : TMState) (h : TMReachable k s) :
    s.processing_tasks ≤ k ∧ live_processing s ≤ k := by
  have hinv := tm_inv_reachable k s h
  refine ⟨hinv.counter_le, ?_⟩
  calc live_processing s ≤ s.execs.length := List.length_filter_le _ _
    _ = s.processing_tasks := hinv.counter_eq.symm
    _ ≤ k := hinv.counter_le

/-- Witness for `processing_counter_le_max` at the initial state with
`max_concurrent_tasks = 1`. -/
theorem processing_counter_le_max_witness :
    TMReachable 1 tm_init ∧
    (tm_init.processing_tasks ≤ 1 ∧ live_processing tm_init ≤ 1) :=
  ⟨Relation.ReflTransGen.refl,
    processing_counter_le_max 1 tm_init Relation.ReflTransGen.refl⟩

/-- The state reached, with `max_concurrent_tasks = 1`, by: submit job 10;
admit and start it; cancel it while it is processing (after its last
checkpoint); let its pipeline return normally (the line 96 guard then skips
the `'completed'` assignment, so job 10 stays `'processing'` forever while
its slot is freed); submit job 20; admit and start it. -/
def c1_violation_state : TMState :=
  start_run_post
    (admit_post
      (submit_post
        (finish_post
          (cancel_processing_post
            (start_run_post (admit_post (submit_post tm_init 10) 10 []) 10) 10)
          10 none false)
        20)
      20 [])
    20

/-- C1 counterexample.  With `max_concurrent_tasks = 1`, a reachable state
holds two jobs in `'processing'` status simultaneously: a job cancelled after
its final cancellation checkpoint whose pipeline returns normally is left in
`'processing'` with no executor (task_manager.py line 96 skips the terminal
assignment and no handler runs), its slot is freed, and the next admitted job
is also `'processing'`. -/
theorem processing_status_can_exceed_limit :
    TMReachable 1 c1_violation_state ∧
    count_processing c1_violation_state = 2 ∧
    ¬ count_processing c1_violation_state ≤ 1 := by
  refine ⟨?_, by decide, by decide⟩
  exact Relation.ReflTransGen.tail
    (Relation.ReflTransGen.tail
      (Relation.ReflTransGen.tail
        (Relation.ReflTransGen.tail
          (Relation.ReflTransGen.tail
            (Relation.ReflTransGen.tail
              (Relation.ReflTransGen.tail
                (Relation.ReflTransGen.single (TMStep.submit tm_init 10 (by decide)))
                (TMStep.admit_next _ 10 [] (by decide) (by decide)))
              (TMStep.start_run _ 10 (by decide) (by decide)))
            (TMStep.cancel_processing _ 10 (by decide)))
          (TMStep.finish_stuck _ 10 (by decide) (by decide)))
        (TMStep.submit _ 20 (by decide)))
      (TMStep.admit_next _ 20 [] (by decide) (by decide)))
    (TMStep.start_run _ 20 (by decide) (by decide))

/-- Safety predicate for a job whose cancellation has been requested: its
record exists, it is not `'completed'`, and either its id is still flagged in
`_cancelled_tasks` (which blocks the `'completed'` assignment, line 96) or it
has already finished as `'cancelled'` with no queue entry and no executor
left. -/
def tm_safe (id : Nat) (s : TMState) : Prop :=
  (lookupSt s.tasks id).isSome ∧
  lookupSt s.tasks id ≠ some .completed ∧
  (id ∈ s.cancelled ∨
    (lookupSt s.tasks id = some .cancelled ∧ id ∉ s.queue ∧ id ∉ s.execs.map (·.id)))

theorem tm_safe_step (k id : Nat) (s s' : TMState) (hinv : TMInv k s)
    (hstep : TMStep k s s') (hs : tm_safe id s) : tm_safe id s' := by
  obtain ⟨hsome, hncomp, hQ⟩ := hs
  cases hstep with
  | submit j h =>
      simp only [tm_safe, submit_post, admit_post, start_run_post, start_missing_post,
        finish_post, cancel_pending_post, cancel_processing_post]
      have hne : j ≠ id := by
        intro he
        subst he
        rw [h] at hsome
        simp at hsome
      have hlook : lookupSt (s.tasks ++ [(j, TaskStatus.pending)]) id =
          lookupSt s.tasks id :=
        lookupSt_append_of_isSome _ _ _ hsome
      refine And.intro ?_ (And.intro ?_ ?_)
      · rw [hlook]; exact hsome
      · rw [hlook]; exact hncomp
      · rcases hQ with h1 | ⟨h1, h2, h3⟩
        · exact Or.inl h1
        · refine Or.inr (And.intro ?_ (And.intro ?_ h3))
          · rw [hlook]; exact h1
          · intro hm
            rcases List.mem_append.mp hm with hm1 | hm1
            · exact h2 hm1
            · have hij : id = j := by simpa using hm1
              exact hne hij.symm
  | admit_next j rest hq hc =>
      simp only [tm_safe, submit_post, admit_post, start_run_post, start_missing_post,
        finish_post, cancel_pending_post, cancel_processing_post]
      refine ⟨hsome, hncomp, ?_⟩
      rcases hQ with h1 | ⟨h1, h2, h3⟩
      · exact Or.inl h1
      · have hje : id ≠ j := by
          intro he
          subst he
          exact h2 (by rw [hq]; exact List.mem_cons_self _ _)
        refine Or.inr ⟨h1, ?_, ?_⟩
        · intro hm
          exact h2 (by rw [hq]; exact List.mem_cons_of_mem _ hm)
        · intro hm
          rw [List.map_append] at hm
          rcases List.mem_append.mp hm with hm1 | hm1
          · exact h3 hm1
          · exact hje (by simpa using hm1)
  | start_run j he ht =>
      simp only [tm_safe, submit_post, admit_post, start_run_post, start_missing_post,
        finish_post, cancel_pending_post, cancel_processing_post]
      by_cases hj : j = id
      · subst hj
        have hset : lookupSt (setSt s.tasks j .processing) j = some .processing :=
          lookupSt_setSt_self _ _ _ hsome
        refine ⟨by rw [hset]; rfl, by rw [hset]; simp, ?_⟩
        rcases hQ with h1 | ⟨h1, h2, h3⟩
        · exact Or.inl h1
        · exact absurd (List.mem_map.mpr ⟨⟨j, false⟩, he, rfl⟩) h3
      · have hlook : lookupSt (setSt s.tasks j .processing) id = lookupSt s.tasks id :=
          lookupSt_setSt_ne _ _ _ _ (fun h => hj h.symm)
        refine ⟨by rw [hlook]; exact hsome, by rw [hlook]; exact hncomp, ?_⟩
        rcases hQ with h1 | ⟨h1, h2, h3⟩
        · exact Or.inl h1
        · refine Or.inr ⟨by rw [hlook]; exact h1, h2, ?_⟩
          show id ∉ (s.execs.map (fun e => if e = ⟨j, false⟩ then ⟨j, true⟩ else e)).map (·.id)
          rw [execIds_start_update]
          exact h3
  | start_missing j he ht =>
      have h1 := hinv.exec_has ⟨j, false⟩ he
      rw [ht] at h1
      simp at h1
  | finish_completed j he hc =>
      simp only [tm_safe, submit_post, admit_post, start_run_post, start_missing_post,
        finish_post, cancel_pending_post, cancel_processing_post]
      by_cases hj : j = id
      · subst hj
        rcases hQ with h1 | ⟨h1, h2, h3⟩
        · exact absurd h1 hc
        · exact absurd (List.mem_map.mpr ⟨⟨j, true⟩, he, rfl⟩) h3
      · have hlook : lookupSt (setSt s.tasks j .completed) id = lookupSt s.tasks id :=
          lookupSt_setSt_ne _ _ _ _ (fun h => hj h.symm)
        refine ⟨by rw [hlook]; exact hsome, by rw [hlook]; exact hncomp, ?_⟩
        rcases hQ with h1 | ⟨h1, h2, h3⟩
        · exact Or.inl h1
        · refine Or.inr ⟨by rw [hlook]; exact h1, h2, ?_⟩
          intro hm
          rcases List.mem_map.mp hm with ⟨e, hee, hei⟩
          exact h3 (List.mem_map.mpr ⟨e, List.mem_of_mem_erase hee, hei⟩)
  | finish_stuck j he hc =>
      simp only [tm_safe, submit_post, admit_post, start_run_post, start_missing_post,
        finish_post, cancel_pending_post, cancel_processing_post]
      refine ⟨hsome, hncomp, ?_⟩
      rcases hQ with h1 | ⟨h1, h2, h3⟩
      · exact Or.inl h1
      · refine Or.inr ⟨h1, h2, ?_⟩
        intro hm
        rcases List.mem_map.mp hm with ⟨e, hee, hei⟩
        exact h3 (List.mem_map.mpr ⟨e, List.mem_of_mem_erase hee, hei⟩)
  | finish_error j he =>
      simp only [tm_safe, submit_post, admit_post, start_run_post, start_missing_post,
        finish_post, cancel_pending_post, cancel_processing_post]
      by_cases hj : j = id
      · subst hj
        have hset : lookupSt (setSt s.tasks j .error) j = some .error :=
          lookupSt_setSt_self _ _ _ hsome
        have hcanc : j ∈ s.cancelled := by
          rcases hQ with h1 | ⟨h1, h2, h3⟩
          · exact h1
          · exact absurd (List.mem_map.mpr ⟨⟨j, true⟩, he, rfl⟩) h3
        exact ⟨by rw [hset]; rfl, by rw [hset]; simp, Or.inl hcanc⟩
      · have hlook : lookupSt (setSt s.tasks j .error) id = lookupSt s.tasks id :=
          lookupSt_setSt_ne _ _ _ _ (fun h => hj h.symm)
        refine ⟨by rw [hlook]; exact hsome, by rw [hlook]; exact hncomp, ?_⟩
        rcases hQ with h1 | ⟨h1, h2, h3⟩
        · exact Or.inl h1
        · refine Or.inr ⟨by rw [hlook]; exact h1, h2, ?_⟩
          intro hm
          rcases List.mem_map.mp hm with ⟨e, hee, hei⟩
          exact h3 (List.mem_map.mpr ⟨e, List.mem_of_mem_erase hee, hei⟩)
  | finish_timeout j he =>
      simp only [tm_safe, submit_post, admit_post, start_run_post, start_missing_post,
        finish_post, cancel_pending_post, cancel_processing_post]
      by_cases hj : j = id
      · subst hj
        have hset : lookupSt (setSt s.tasks j .timeout) j = some .timeout :=
          lookupSt_setSt_self _ _ _ hsome
        have hcanc : j ∈ s.cancelled := by
          rcases hQ with h1 | ⟨h1, h2, h3⟩
          · exact h1
          · exact absurd (List.mem_map.mpr ⟨⟨j, true⟩, he, rfl⟩) h3
        exact ⟨by rw [hset]; rfl, by rw [hset]; simp, Or.inl hcanc⟩
      · have hlook : lookupSt (setSt s.tasks j .timeout) id = lookupSt s.tasks id :=
          lookupSt_setSt_ne _ _ _ _ (fun h => hj h.symm)
        refine ⟨by rw [hlook]; exact hsome, by rw [hlook]; exact hncomp, ?_⟩
        rcases hQ with h1 | ⟨h1, h2, h3⟩
        · exact Or.inl h1
        · refine Or.inr ⟨by rw [hlook]; exact h1, h2, ?_⟩
          intro hm
          rcases List.mem_map.mp hm with ⟨e, hee, hei⟩
          exact h3 (List.mem_map.mpr ⟨e, List.mem_of_mem_erase hee, hei⟩)
  | finish_cancelled j he hc =>
      simp only [tm_safe, submit_post, admit_post, start_run_post, start_missing_post,
        finish_post, cancel_pending_post, cancel_processing_post]
      by_cases hj : j = id
      · subst hj
        have hset : lookupSt (setSt s.tasks j .cancelled) j = some .cancelled :=
          lookupSt_setSt_self _ _ _ hsome
        have hjq : j ∉ s.queue := by
          intro hm
          have hdisj := List.disjoint_of_nodup_append hinv.nodup
          exact hdisj hm (List.mem_map.mpr ⟨⟨j, true⟩, he, rfl⟩)
        have hnd : (s.execs.map (·.id)).Nodup := hinv.nodup.of_append_right
        have hje : j ∉ (s.execs.erase ⟨j, true⟩).map (·.id) :=
          not_mem_map_erase (·.id) s.execs ⟨j, true⟩ hnd he
        exact ⟨by rw [hset]; rfl, by rw [hset]; simp, Or.inr ⟨hset, hjq, hje⟩⟩
      · have hlook : lookupSt (setSt s.tasks j .cancelled) id = lookupSt s.tasks id :=
          lookupSt_setSt_ne _ _ _ _ (fun h => hj h.symm)
        refine ⟨by rw [hlook]; exact hsome, by rw [hlook]; exact hncomp, ?_⟩
        rcases hQ with h1 | ⟨h1, h2, h3⟩
        · exact Or.inl (Finset.mem_erase.mpr ⟨fun h => hj h.symm, h1⟩)
        · refine Or.inr ⟨by rw [hlook]; exact h1, h2, ?_⟩
          intro hm
          rcases List.mem_map.mp hm with ⟨e, hee, hei⟩
          exact h3 (List.mem_map.mpr ⟨e, List.mem_of_mem_erase hee, hei⟩)
  | cancel_pending j h =>
      simp only [tm_safe, submit_post, admit_post, start_run_post, start_missing_post,
        finish_post, cancel_pending_post, cancel_processing_post]
      by_cases hj : j = id
      · subst hj
        have hset : lookupSt (setSt s.tasks j .cancelled) j = some .cancelled :=
          lookupSt_setSt_self _ _ _ hsome
        exact ⟨by rw [hset]; rfl, by rw [hset]; simp,
          Or.inl (Finset.mem_insert_self j _)⟩
      · have hlook : lookupSt (setSt s.tasks j .cancelled) id = lookupSt s.tasks id :=
          lookupSt_setSt_ne _ _ _ _ (fun h => hj h.symm)
        refine ⟨by rw [hlook]; exact hsome, by rw [hlook]; exact hncomp, ?_⟩
        rcases hQ with h1 | ⟨h1, h2, h3⟩
        · exact Or.inl (Finset.mem_insert_of_mem h1)
        · exact Or.inr ⟨by rw [hlook]; exact h1, h2, h3⟩
  | cancel_processing j h =>
      simp only [tm_safe, submit_post, admit_post, start_run_post, start_missing_post,
        finish_post, cancel_pending_post, cancel_processing_post]
      refine ⟨hsome, hncomp, ?_⟩
      rcases hQ with h1 | ⟨h1, h2, h3⟩
      · exact Or.inl (Finset.mem_insert_of_mem h1)
      · exact Or.inr ⟨h1, h2, h3⟩

theorem tm_safe_star (k id : Nat) (s s' : TMState) (hinv : TMInv k s)
    (hs : tm_safe id s) (hstep : Relation.ReflTransGen (TMStep k) s s') :
    tm_safe id s' := by
  induction hstep with
  | refl => exact hs
  | tail hr hst ih => exact tm_safe_step k id _ _ (tm_inv_star k hinv hr) hst ih

/-- C2 as amended.  Cancelling a `'pending'` job marks it `'cancelled'`
immediately; its id remains queued (and flagged), so a later dequeue may
transiently re-mark it `'processing'` (task_manager.py line 85) — but the
cancellation flag then forces the first checkpoint to raise, and in no later
reachable state is the job ever `'completed'`. -/
theorem cancel_pending_never_completed (k : Nat) (s : TMState) (id : Nat)
    (hreach : TMReachable k s) (hp : lookupSt s.tasks id = some .pending) :
    lookupSt (cancel_pending_post s id).tasks id = some .cancelled ∧
    ∀ s', Relation.ReflTransGen (TMStep k) (cancel_pending_post s id) s' →
      lookupSt s'.tasks id ≠ some .completed := by
  have hinv := tm_inv_reachable k s hreach
  have hinv' : TMInv k (cancel_pending_post s id) :=
    tm_inv_step k s _ hinv (TMStep.cancel_pending s id hp)
  have hsome : (lookupSt s.tasks id).isSome := by rw [hp]; rfl
  have hl : lookupSt (cancel_pending_post s id).tasks id = some .cancelled :=
    lookupSt_setSt_self s.tasks id .cancelled hsome
  refine ⟨hl, ?_⟩
  intro s' hstar
  have hsafe0 : tm_safe id (cancel_pending_post s id) := by
    refine ⟨by rw [hl]; rfl, by rw [hl]; simp, Or.inl ?_⟩
    show id ∈ insert id s.cancelled
    exact Finset.mem_insert_self id _
  exact (tm_safe_star k id _ s' hinv' hsafe0 hstar).2.1

/-- Witness for `cancel_pending_never_completed`: job 5 submitted and
immediately cancelled while pending. -/
theorem cancel_pending_never_completed_witness :
    TMReachable 1 (submit_post tm_init 5) ∧
    lookupSt (submit_post tm_init 5).tasks 5 = some .pending ∧
    (lookupSt (cancel_pending_post (submit_post tm_init 5) 5).tasks 5 = some .cancelled ∧
      ∀ s', Relation.ReflTransGen (TMStep 1)
          (cancel_pending_post (submit_post tm_init 5) 5) s' →
        lookupSt s'.tasks 5 ≠ some .completed) :=
  ⟨Relation.ReflTransGen.single (TMStep.submit tm_init 5 (by decide)), by decide,
    cancel_pending_never_completed 1 (submit_post tm_init 5) 5
      (Relation.ReflTransGen.single (TMStep.submit tm_init 5 (by decide))) (by decide)⟩

/-- State with `max_concurrent_tasks = 1` in which job 1 is processing and
job 2, still queued, has just been cancelled while `'pending'`: job 2's
status is the terminal `'cancelled'`. -/
def c2_mid_state : TMState :=
  cancel_pending_post (submit_post (admit_post (submit_post tm_init 1) 1 []) 2) 2

/-- Continuation of `c2_mid_state`: job 1 starts and completes, freeing the
slot; the backfilling `process_next_task` dequeues the cancelled job 2 and
its executor's entry region re-marks it `'processing'`. -/
def c2_final_state : TMState :=
  start_run_post
    (admit_post (finish_post (start_run_post c2_mid_state 1) 1 (some .completed) false)
      2 [])
    2

/-- C2 counterexample.  A job cancelled while `'pending'` reaches the
terminal status `'cancelled'`, yet a later step sequence — the dequeue of its
still-queued id — moves it back to `'processing'` (task_manager.py line 85
runs before the cancellation check on line 159). -/
theorem cancelled_pending_reenters_processing :
    TMReachable 1 c2_mid_state ∧
    lookupSt c2_mid_state.tasks 2 = some .cancelled ∧
    Relation.ReflTransGen (TMStep 1) c2_mid_state c2_final_state ∧
    lookupSt c2_final_state.tasks 2 = some .processing := by
  refine ⟨?_, by decide, ?_, by decide⟩
  · exact Relation.ReflTransGen.tail
      (Relation.ReflTransGen.tail
        (Relation.ReflTransGen.tail
          (Relation.ReflTransGen.single (TMStep.submit tm_init 1 (by decide)))
          (TMStep.admit_next _ 1 [] (by decide) (by decide)))
        (TMStep.submit _ 2 (by decide)))
      (TMStep.cancel_pending _ 2 (by decide))
  · exact Relation.ReflTransGen.tail
      (Relation.ReflTransGen.tail
        (Relation.ReflTransGen.tail
          (Relation.ReflTransGen.single
            (TMStep.start_run c2_mid_state 1 (by decide) (by decide)))
          (TMStep.finish_completed _ 1 (by decide) (by decide)))
        (TMStep.admit_next _ 2 [] (by decide) (by decide)))
      (TMStep.start_run _ 2 (by decide) (by decide))
